import Mathlib

/-!
Verification development for the `deepint-external-source-mongo` adapter.

The development shallowly embeds the core of the adapter:
  * `src/utils/deepint-sources.ts`: `sanitizeQueryTree`, `turnInto`,
    `negateMongoQuery`, `escapeRegExp`, `toMongoFilter`;
  * `src/source.ts`: `pushInstances`, `noticeUpdate`, `getNominalValues`
    (the storage gateway is modelled as a pure list of documents).

JavaScript dynamic values are modelled by the inductive type `JSVal`.
Numbers are modelled as integers plus `NaN` (the claims under study never
exercise non-integral numbers).  Fallible evaluation (a thrown `TypeError`)
is modelled with `Except`.  Recursive functions over dynamically shaped
data are written fuel-first so that every definition is structurally
recursive and evaluates inside the kernel; each fuel constant strictly
dominates the recursion depth reachable from the embedded code (the
sanitizer stops recursing at depth 4), so the fuel-exhaustion branches are
unreachable from the wrappers that model the source functions.
-/

/-- A JavaScript number: either an integer value or `NaN`.  (The source code
only ever floors, compares and stringifies the numbers it handles; the
claims never involve non-integral values, so fractional doubles are not
modelled.) -/
inductive JNum where
  | nan
  | int (n : Int)
  deriving Repr, DecidableEq

/-- A JavaScript value, as received over JSON plus `undefined`. -/
inductive JSVal where
  | null
  | undefV
  | bool (b : Bool)
  | num (j : JNum)
  | str (s : String)
  | arr (elems : List JSVal)
  | obj (fields : List (String × JSVal))
  deriving Repr

/-- `typeof v === "object"` — true for `null`, arrays and plain objects. -/
def typeofIsObject : JSVal → Bool
  | .null => true
  | .arr _ => true
  | .obj _ => true
  | _ => false

/-- First-occurrence lookup in an object's field list. -/
def jsLookup : List (String × JSVal) → String → Option JSVal
  | [], _ => none
  | (k, v) :: rest, key => if k = key then some v else jsLookup rest key

/-- Thrown JavaScript errors that the embedding distinguishes.
`typeError` models a thrown `TypeError` (property access on `null` or
`undefined`, calling `.replace` on a non-string).  `fuelExhausted` is the
out-of-fuel branch of the bounded recursions; it is unreachable from the
top-level wrappers (see the fuel remarks above). -/
inductive JsErr where
  | typeError
  | fuelExhausted
  deriving Repr, DecidableEq

/-- Property access `v[key]`: throws a `TypeError` on `null`/`undefined`;
yields the field for objects; yields `undefined` for arrays (none of the
accessed keys is an array property) and for primitives (which box). -/
def getProp : JSVal → String → Except JsErr JSVal
  | .null, _ => .error .typeError
  | .undefV, _ => .error .typeError
  | .obj fields, key => .ok ((jsLookup fields key).getD .undefV)
  | _, _ => .ok .undefV

/-- Rendering of a JavaScript number by `"" + n`. -/
def jnumToString : JNum → String
  | .nan => "NaN"
  | .int n => toString n

/-- String conversion `"" + v`, fuel-bounded (arrays stringify their
elements recursively, with `null`/`undefined` elements rendering as the
empty string). -/
def jsToStringN : Nat → JSVal → String
  | 0, _ => ""
  | n + 1, v =>
    match v with
    | .null => "null"
    | .undefV => "undefined"
    | .bool b => if b then "true" else "false"
    | .num j => jnumToString j
    | .str s => s
    | .obj _ => "[object Object]"
    | .arr elems =>
      String.intercalate ","
        (elems.map (fun e =>
          match e with
          | .null => ""
          | .undefV => ""
          | e' => jsToStringN n e'))

/-- String conversion `"" + v`.  Fuel 1000 dominates the nesting depth of
every value the claims touch. -/
def jsToString (v : JSVal) : String := jsToStringN 1000 v

/-- `.toLowerCase()` (ASCII case mapping). -/
def strToLower (s : String) : String := ⟨s.data.map Char.toLower⟩

/-- `.substr(0, n)` — the first `n` characters. -/
def strTake (s : String) (n : Nat) : String := ⟨s.data.take n⟩

/-- JavaScript truthiness of a value. -/
def jsTruthy : JSVal → Bool
  | .null => false
  | .undefV => false
  | .bool b => b
  | .num .nan => false
  | .num (.int n) => n ≠ 0
  | .str s => s ≠ ""
  | .arr _ => true
  | .obj _ => true

/-- Whitespace trimming of a string (structural form of `.trim`). -/
def strTrim (s : String) : String :=
  ⟨((s.data.dropWhile Char.isWhitespace).reverse.dropWhile Char.isWhitespace).reverse⟩

/-- Number parsing of a (trimmed) string by `Number(...)`: the empty string
is `0`, an optionally signed run of decimal digits is that integer, and
anything else is `NaN` (non-integral numerals are outside the modelled
value space). -/
def parseNumStr (s : String) : JNum :=
  let t := strTrim s
  if t = "" then .int 0
  else
    let (sign, digits) :=
      match t.data with
      | '-' :: rest => ((-1 : Int), rest)
      | '+' :: rest => ((1 : Int), rest)
      | l => ((1 : Int), l)
    if digits ≠ [] ∧ digits.all Char.isDigit then
      .int (sign * (digits.foldl (fun acc c => acc * 10 + (c.toNat - '0'.toNat)) 0 : Nat))
    else .nan

/-- `Number(v)` — ToNumber coercion. -/
def jsToNumber : JSVal → JNum
  | .null => .int 0
  | .undefV => .nan
  | .bool b => .int (if b then 1 else 0)
  | .num j => j
  | .str s => parseNumStr s
  | .arr elems => parseNumStr (jsToString (.arr elems))
  | .obj fields => parseNumStr (jsToString (.obj fields))

/-- The declared feature types (`FeatureType` in the source). -/
inductive FeatureType where
  | nominal
  | text
  | numeric
  | logic
  | date
  deriving Repr, DecidableEq

/-- A schema feature (`Feature` in the source). -/
structure Feature where
  index : Nat
  type : FeatureType
  name : String
  deriving Repr, DecidableEq

/-- A coerced instance value (`InstanceType` in the source:
`string | number | Date | boolean`, together with `null`).  Dates carry
their millisecond timestamp. -/
inductive InstanceVal where
  | nullV
  | strV (s : String)
  | numV (n : Int)
  | boolV (b : Bool)
  | dateV (ms : Int)
  deriving Repr, DecidableEq

/-- Strict equality test `v === null || v === undefined`. -/
def jsIsNullOrUndef : JSVal → Bool
  | .null => true
  | .undefV => true
  | _ => false

/-- Strict equality test `v === s` against a string literal. -/
def jsStrictEqStr : JSVal → String → Bool
  | .str s, t => s = t
  | _, _ => false

/-- `new Date(v)` as a millisecond timestamp, `none` meaning an invalid
date (whose `toISOString()` throws).  The platform's string-to-date parser
is abstracted as the parameter `dp`; objects and arrays are converted via
their primitive (string) form. -/
def jsNewDate (dp : String → Option Int) : JSVal → Option Int
  | .null => some 0
  | .undefV => none
  | .bool b => some (if b then 1 else 0)
  | .num .nan => none
  | .num (.int n) => if n.natAbs ≤ 8640000000000000 then some n else none
  | .str s => dp s
  | .arr elems => dp (jsToString (.arr elems))
  | .obj fields => dp (jsToString (.obj fields))

/-- Embedding of `turnInto(data, type)` (deepint-sources.ts, lines 84-120):
the per-feature-type coercion.  `dp` abstracts the platform date parser.
The function is total: the `try { ... toISOString() ... } catch` around the
date branch is modelled by the `Option` result of `jsNewDate`, whose `none`
case (invalid date) yields the epoch `new Date(0)`. -/
def turnInto (dp : String → Option Int) (data : JSVal) (type : FeatureType) : InstanceVal :=
  if jsIsNullOrUndef data then .nullV
  else
    match type with
    | .nominal => .strV (strTake (jsToString data) 255)
    | .date =>
      match jsNewDate dp data with
      | some ms => .dateV ms
      | none => .dateV 0
    | .numeric =>
      match jsToNumber data with
      | .nan => .nullV
      | .int n => .numV n
    | .logic =>
      if jsStrictEqStr data "true" ∨ jsStrictEqStr data "1" then .boolV true
      else if jsStrictEqStr data "false" ∨ jsStrictEqStr data "0" then .boolV false
      else .boolV (jsTruthy data)
    | .text => .strV (jsToString data)

/-- A date parser that recognizes nothing (every string is an invalid
date); used to instantiate `dp` in concrete computations that never depend
on successful string-date parsing. -/
def dpNone : String → Option Int := fun _ => none

/-- The canonical query tree (`QueryTree` in the source).  `right` is
`string | null`, hence `Option String`; `left` is a JavaScript number. -/
inductive QueryTree where
  | mk (type : String) (operation : String) (left : JNum) (right : Option String)
      (children : List QueryTree)
  deriving Repr

def QueryTree.type : QueryTree → String
  | .mk t _ _ _ _ => t

def QueryTree.operation : QueryTree → String
  | .mk _ o _ _ _ => o

def QueryTree.left : QueryTree → JNum
  | .mk _ _ l _ _ => l

def QueryTree.right : QueryTree → Option String
  | .mk _ _ _ r _ => r

def QueryTree.children : QueryTree → List QueryTree
  | .mk _ _ _ _ c => c

/-- `QUERY_TREE_MAX_DEPH` in the source. -/
def QUERY_TREE_MAX_DEPH : Nat := 4

/-- `QUERY_TREE_MAX_CHILDREN` in the source. -/
def QUERY_TREE_MAX_CHILDREN : Nat := 16

/-- The recognized node types. -/
def validTypes : List String := ["single", "one", "anyof", "allof", "not"]

/-- The combinator node types (the keys of `{ anyof: 1, allof: 1, not: 1 }`). -/
def combTypes : List String := ["anyof", "allof", "not"]

/-- The recognized operations. -/
def validOps : List String :=
  ["null", "eq", "lt", "le", "lte", "gt", "ge", "gte", "cn", "cni", "sw", "swi", "ew", "ewi"]

/-- Effectful map over a list in the `Except` monad (the sanitizer's and the
compiler's child loops). -/
def mapExc (f : α → Except ε β) : List α → Except ε (List β)
  | [] => .ok []
  | x :: xs => do
    let y ← f x
    let ys ← mapExc f xs
    .ok (y :: ys)

/-- The all-default node built at the top of `sanitizeQueryTree`. -/
def defaultNode : QueryTree := .mk "anyof" "" (.int (-1)) (some "") []

/-- Fuel-bounded embedding of `sanitizeQueryTree(tree, depth)`
(deepint-sources.ts, lines 18-72).  Each recursive call into a child
happens only while `depth < QUERY_TREE_MAX_DEPH` and uses `depth + 1`, so
from any starting depth at most 4 nested calls occur and fuel 5 never runs
out (see `sanitizeQueryTree`).  Note that `typeof null === "object"`, so a
`null` input passes the object guard and the subsequent `tree.type`
property access throws. -/
def sanitizeF : Nat → JSVal → Nat → Except JsErr QueryTree
  | 0, _, _ => .error .fuelExhausted
  | fuel + 1, tree, depth =>
    if typeofIsObject tree then do
      let tyRaw ← getProp tree "type"
      let ty0 := strToLower (jsToString tyRaw)
      let ty := if validTypes.contains ty0 then ty0 else "anyof"
      let opRaw ← getProp tree "operation"
      let op0 := strToLower (jsToString opRaw)
      let op := if validOps.contains op0 then op0 else ""
      let leftRaw ← getProp tree "left"
      let left : JNum :=
        match leftRaw with
        | .num j => j
        | _ => .int (-1)
      let rightRaw ← getProp tree "right"
      let right : Option String :=
        match rightRaw with
        | .null => none
        | r =>
          let r0 := jsToString r
          some (if r0.data.length > 1024 then strTake r0 1024 else r0)
      let childrenRaw ← getProp tree "children"
      let children ←
        match childrenRaw with
        | .arr elems =>
          if depth < QUERY_TREE_MAX_DEPH ∧ combTypes.contains ty then
            mapExc (fun c => sanitizeF fuel c (depth + 1)) (elems.take QUERY_TREE_MAX_CHILDREN)
          else .ok []
        | _ => .ok []
      .ok (.mk ty op left right children)
    else .ok defaultNode

/-- Embedding of `sanitizeQueryTree(tree, depth)`. -/
def sanitizeQueryTree (tree : JSVal) (depth : Nat) : Except JsErr QueryTree :=
  sanitizeF 5 tree depth

/-- A per-field condition object inside a Mongo filter (`{$eq: v}`,
`{$lt: v}`, …, `{$regex: re}`, `{$not: cond}`, `{$exists: b}`). -/
inductive FCond where
  | eq (v : InstanceVal)
  | lt (v : InstanceVal)
  | le (v : InstanceVal)
  | gt (v : InstanceVal)
  | ge (v : InstanceVal)
  | regex (pattern : String) (ci : Bool)
  | not (c : FCond)
  | exists_ (b : Bool)
  deriving Repr

/-- A Mongo filter object as built by `toMongoFilter`/`negateMongoQuery`.
Every filter these functions construct has at most one top-level key, so a
single constructor per shape is a faithful model of the reachable objects:
`{}`, `{$and: [...]}`, `{$or: [...]}`, `{name: cond}` — plus `bare cond`,
a condition object used directly at filter level, which the `"null"`
operation branch produces (`{$exists:false}`/`{$eq:null}` with no field
key). -/
inductive MFilter where
  | empty
  | and (fs : List MFilter)
  | or (fs : List MFilter)
  | field (name : String) (c : FCond)
  | bare (c : FCond)
  deriving Repr

/-- The characters escaped by `escapeRegExp`'s character class
`[-[\]{}()*+?.,\\^$|#\s]` (whitespace per JavaScript's `\s`, restricted to
its common members; escaping a whitespace character is semantically a
no-op in a regular expression, so the restriction does not affect the
pattern's meaning). -/
def isRegexMeta (c : Char) : Bool :=
  c ∈ ['-', '[', ']', '\x7b', '\x7d', '(', ')', '*', '+', '?', '.', ',', '\\', '^', '$', '|', '#']
    || c ∈ [' ', '\t', '\n', '\r', '\x0b', '\x0c']

/-- Character-list form of `escapeRegExp`: each metacharacter is replaced
by `"\\$&"`, i.e. prefixed with a backslash. -/
def escapeRegExpL : List Char → List Char
  | [] => []
  | c :: cs => if isRegexMeta c then '\\' :: c :: escapeRegExpL cs else c :: escapeRegExpL cs

/-- Embedding of `escapeRegExp(text)` (deepint-sources.ts, lines 142-144). -/
def escapeRegExp (s : String) : String := ⟨escapeRegExpL s.data⟩

/-- `escapeRegExp(cmp)` is called on the coerced literal, which is only a
string for string-typed features; `.replace` on any other value throws a
`TypeError`. -/
def escapeVal : InstanceVal → Except JsErr String
  | .strV s => .ok (escapeRegExp s)
  | _ => .error .typeError

/-- Fuel-bounded embedding of `negateMongoQuery(query)` (deepint-sources.ts,
lines 122-140) on the reachable single-key filters: a field key is wrapped
in `$not`, `$and` becomes `$or` of negated children and vice versa, `{}`
and bare `$`-operator objects are returned unchanged (their keys start with
`$` and are not `$and`/`$or`/`$not`; a top-level `$not` key is never
constructed by the compiler). -/
def negateN : Nat → MFilter → MFilter
  | 0, f => f
  | fuel + 1, f =>
    match f with
    | .empty => .empty
    | .and fs => .or (fs.map (negateN fuel))
    | .or fs => .and (fs.map (negateN fuel))
    | .field name c => .field name (.not c)
    | .bare c => .bare c

/-- Embedding of `negateMongoQuery`.  Fuel 16 dominates the depth of every
filter the compiler can build from a depth-bounded tree. -/
def negateMongoQuery (f : MFilter) : MFilter := negateN 16 f

/-- Feature lookup `features[query.left]` with a JavaScript number index:
`NaN`, negative and out-of-range indices yield `undefined`. -/
def jsIndex (features : List Feature) : JNum → Option Feature
  | .nan => none
  | .int n => if n < 0 then none else features.get? n.toNat

/-- The coerced comparison literal `turnInto(query.right, feature.type)`
(`query.right` is `string | null`). -/
def coerceRight (dp : String → Option Int) (right : Option String) (t : FeatureType) : InstanceVal :=
  match right with
  | none => turnInto dp .null t
  | some s => turnInto dp (.str s) t

/-- Fuel-bounded embedding of `toMongoFilter(features, query)`
(deepint-sources.ts, lines 146-272) on a non-null query tree.  Children of
`anyof`/`allof`/`not` nodes are compiled recursively; the fuel dominates
the node depth of every tree the sanitizer can produce (≤ 5 levels). -/
def toMongoFilterN (dp : String → Option Int) (features : List Feature) :
    Nat → QueryTree → Except JsErr MFilter
  | 0, _ => .error .fuelExhausted
  | fuel + 1, query =>
    match query.type with
    | "anyof" => do
      let fs ← mapExc (toMongoFilterN dp features fuel) query.children
      if fs.length = 0 then .ok .empty else .ok (.or fs)
    | "allof" => do
      let fs ← mapExc (toMongoFilterN dp features fuel) query.children
      if fs.length = 0 then .ok .empty else .ok (.and fs)
    | "not" => do
      let nd ← mapExc (toMongoFilterN dp features fuel) query.children
      if nd.length > 0 then .ok (negateMongoQuery (.and nd)) else .ok .empty
    | _ =>
      if query.operation ≠ "null" ∧ query.right = none then .ok .empty
      else
        match jsIndex features query.left with
        | none => .ok .empty
        | some feature =>
          let cmp := coerceRight dp query.right feature.type
          match query.operation with
          | "null" => .ok (.or [.bare (.exists_ false), .bare (.eq .nullV)])
          | "eq" => .ok (.field feature.name (.eq cmp))
          | "lt" => .ok (.field feature.name (.lt cmp))
          | "le" => .ok (.field feature.name (.le cmp))
          | "lte" => .ok (.field feature.name (.le cmp))
          | "gt" => .ok (.field feature.name (.gt cmp))
          | "ge" => .ok (.field feature.name (.ge cmp))
          | "gte" => .ok (.field feature.name (.ge cmp))
          | "cn" => do
            let p ← escapeVal cmp
            .ok (.field feature.name (.regex p false))
          | "cni" => do
            let p ← escapeVal cmp
            .ok (.field feature.name (.regex p true))
          | "sw" => do
            let p ← escapeVal cmp
            .ok (.field feature.name (.regex ("^" ++ p) false))
          | "swi" => do
            let p ← escapeVal cmp
            .ok (.field feature.name (.regex ("^" ++ p) true))
          | "ew" => do
            let p ← escapeVal cmp
            .ok (.field feature.name (.regex (p ++ "$") false))
          | "ewi" => do
            let p ← escapeVal cmp
            .ok (.field feature.name (.regex (p ++ "$") true))
          | _ => .ok .empty

/-- Embedding of `toMongoFilter(features, query)` for a non-null tree. -/
def toMongoFilter (dp : String → Option Int) (features : List Feature) (query : QueryTree) :
    Except JsErr MFilter :=
  toMongoFilterN dp features 8 query

/-- `toMongoFilter` on a possibly-null tree (`if (!query) return {}`). -/
def toMongoFilterOpt (dp : String → Option Int) (features : List Feature) :
    Option QueryTree → Except JsErr MFilter
  | none => .ok .empty
  | some q => toMongoFilter dp features q

/-- An atomic regular-expression unit: a literal character or `.`. -/
inductive RAtom where
  | lit (c : Char)
  | anyChar
  deriving Repr, DecidableEq

/-- A regular-expression token: an atom or a starred atom. -/
inductive RTok where
  | atom (a : RAtom)
  | star (a : RAtom)
  deriving Repr, DecidableEq

/-- Pattern characters that the modelled regular-expression fragment does
not interpret when they appear unescaped (quantifiers, groups, classes,
alternation, mid-pattern anchors); a pattern containing one parses to
`none`.  Every such character is escaped by `escapeRegExp`, so escaped
literals always stay inside the fragment. -/
def plainUnmodelled (c : Char) : Bool :=
  c ∈ ['^', '$', '*', '+', '?', '(', ')', '[', ']', '\x7b', '\x7d', '|', '\\']

/-- Read one atom from the front of a pattern body.  `\c` is the literal
`c` (the escapes produced by `escapeRegExp` never use letters or digits,
whose escaped forms mean character classes and are not modelled); `.`
matches any character; an unescaped special character is outside the
fragment. -/
def readAtom : List Char → Option (RAtom × List Char)
  | [] => none
  | c :: rest =>
    if c = '\\' then
      match rest with
      | [] => none
      | c2 :: rest2 => if c2.isAlphanum then none else some (.lit c2, rest2)
    else if c = '.' then some (.anyChar, rest)
    else if c = '$' ∨ plainUnmodelled c = true then none
    else some (.lit c, rest)

/-- Fuel-bounded parse of a pattern body into tokens plus a final-`$`
anchor flag: a sole trailing `$` anchors the end, and a `*` right after an
atom stars it.  Each step consumes at least one character, so
`length + 1` fuel always suffices (see `parseToks`). -/
def parseToksF : Nat → List Char → Option (List RTok × Bool)
  | 0, _ => none
  | _ + 1, [] => some ([], false)
  | fuel + 1, c :: rest =>
    if c = '$' ∧ rest = [] then some ([], true)
    else
      (readAtom (c :: rest)).bind fun ar =>
        if ar.2.head? = some '*' then
          (parseToksF fuel ar.2.tail).map (fun p => (.star ar.1 :: p.1, p.2))
        else
          (parseToksF fuel ar.2).map (fun p => (.atom ar.1 :: p.1, p.2))

/-- Parse of a pattern body. -/
def parseToks (cs : List Char) : Option (List RTok × Bool) :=
  parseToksF (cs.length + 1) cs

/-- Parse a whole pattern: a leading `^` anchors the start. -/
def parsePattern (cs : List Char) : Option (Bool × List RTok × Bool) :=
  if cs.head? = some '^' then (parseToks cs.tail).map (fun p => (true, p.1, p.2))
  else (parseToks cs).map (fun p => (false, p.1, p.2))

/-- Whether an atom matches a character (`.` matches anything but a line
terminator). -/
def atomMatches : RAtom → Char → Bool
  | .lit c, d => c = d
  | .anyChar, d => !(d = '\n' ∨ d = '\r' ∨ d = '\u2028' ∨ d = '\u2029')

/-- Fuel-bounded token matcher at the current position.  `ae` is the
end-anchor flag.  Each step consumes a token or an input character, so
`ts.length + cs.length + 1` fuel always suffices (see `matchToks`). -/
def matchT : Nat → Bool → List RTok → List Char → Bool
  | 0, _, _, _ => false
  | _ + 1, ae, [], cs => if ae then cs.isEmpty else true
  | _ + 1, _, .atom _ :: _, [] => false
  | fuel + 1, ae, .atom a :: ts, c :: cs => atomMatches a c && matchT fuel ae ts cs
  | fuel + 1, ae, .star a :: ts, cs =>
    matchT fuel ae ts cs ||
      (match cs with
       | [] => false
       | c :: cs' => atomMatches a c && matchT fuel ae (.star a :: ts) cs')

/-- Token matcher at the current position. -/
def matchToks (ae : Bool) (ts : List RTok) (cs : List Char) : Bool :=
  matchT (ts.length + cs.length + 1) ae ts cs

/-- Unanchored search: try to match at every suffix of the input. -/
def searchToks (ae : Bool) (ts : List RTok) : List Char → Bool
  | [] => matchToks ae ts []
  | c :: cs => matchToks ae ts (c :: cs) || searchToks ae ts cs

/-- Lower-case the literal characters of a token (the `i` flag is modelled
by case-folding both pattern and input). -/
def lowerTok : RTok → RTok
  | .atom (.lit c) => .atom (.lit c.toLower)
  | .atom .anyChar => .atom .anyChar
  | .star (.lit c) => .star (.lit c.toLower)
  | .star .anyChar => .star .anyChar

/-- Whether the regular expression `pattern` (with the `i` flag iff `ci`)
matches somewhere in `t` — the semantics of Mongo's `$regex` on the
modelled fragment.  Patterns outside the fragment match nothing. -/
def regexMatch (pattern : String) (ci : Bool) (t : String) : Bool :=
  match parsePattern pattern.data with
  | none => false
  | some (anchStart, ts, anchEnd) =>
    let ts := if ci then ts.map lowerTok else ts
    let cs := if ci then t.data.map Char.toLower else t.data
    if anchStart then matchToks anchEnd ts cs else searchToks anchEnd ts cs

/-- Boolean list-prefix test. -/
def isPrefixB : List Char → List Char → Bool
  | [], _ => true
  | _ :: _, [] => false
  | a :: s, b :: t => a = b && isPrefixB s t

/-- Boolean list-infix (contiguous substring) test. -/
def isInfixB (s : List Char) : List Char → Bool
  | [] => isPrefixB s []
  | c :: cs => isPrefixB s (c :: cs) || isInfixB s cs

/-- Boolean list-suffix test. -/
def isSuffixB (s : List Char) : List Char → Bool
  | [] => s.isEmpty
  | c :: cs => s = c :: cs || isSuffixB s cs

example : regexMatch (escapeRegExp "a.b*") false "xa.b*y" = true := by rfl
example : regexMatch (escapeRegExp "a.b*") false "axbbb" = false := by rfl
example : regexMatch "a.b*" false "axbbb" = true := by rfl
example : regexMatch ("^" ++ escapeRegExp "ab") false "abc" = true := by rfl
example : regexMatch ("^" ++ escapeRegExp "ab") false "cab" = false := by rfl
example : regexMatch (escapeRegExp "ab" ++ "$") false "cab" = true := by rfl
example : regexMatch (escapeRegExp "AB") true "xaBy" = true := by rfl

/-- A stored document: field name to BSON value (absent fields are simply
not listed).  Document values are drawn from the same value space the
adapter itself writes. -/
def MDoc := List (String × InstanceVal)

/-- Document field lookup (first occurrence). -/
def docLookup : MDoc → String → Option InstanceVal
  | [], _ => none
  | (k, v) :: rest, key => if k = key then some v else docLookup rest key

/-- Mongo `$eq`: equality against the literal; a `null` literal also
matches an absent field. -/
def mongoEq (v : InstanceVal) (ov : Option InstanceVal) : Bool :=
  match v, ov with
  | .nullV, none => true
  | v, some w => w = v
  | _, none => false

/-- Lexicographic strict order on character lists (an executable form of
the `List Char` order underlying `String.lt`; see `charListLtB_iff`). -/
def charListLtB : List Char → List Char → Bool
  | [], [] => false
  | [], _ :: _ => true
  | _ :: _, [] => false
  | a :: as, b :: bs => (a < b : Bool) || (a = b && charListLtB as bs)

/-- Executable string order (binary comparison, as Mongo compares
strings). -/
def strLtB (a b : String) : Bool := charListLtB a.data b.data

/-- Same-BSON-type strict order used by `$lt`/`$gt` (values of different
types never compare). -/
def bsonLt : InstanceVal → InstanceVal → Bool
  | .numV a, .numV b => a < b
  | .strV a, .strV b => strLtB a b
  | .boolV a, .boolV b => !a && b
  | .dateV a, .dateV b => a < b
  | _, _ => false

/-- Semantics of a field condition against an optional field value.
`$not` is the complement (it also matches absent fields); `$regex` only
matches strings; `$exists` tests presence. -/
def condMatches : FCond → Option InstanceVal → Bool
  | .eq v, ov => mongoEq v ov
  | .lt v, ov =>
    match ov with
    | some w => bsonLt w v
    | none => false
  | .le v, ov =>
    match ov with
    | some w => bsonLt w v || w = v
    | none => false
  | .gt v, ov =>
    match ov with
    | some w => bsonLt v w
    | none => false
  | .ge v, ov =>
    match ov with
    | some w => bsonLt v w || w = v
    | none => false
  | .regex p ci, ov =>
    match ov with
    | some (.strV s) => regexMatch p ci s
    | _ => false
  | .not c, ov => !(condMatches c ov)
  | .exists_ b, ov => ov.isSome = b

/-- Fuel-bounded predicate semantics of a filter over a document.  `$and`
is the conjunction and `$or` the disjunction of the children; `{}` matches
everything; a bare operator object at filter level is rejected by the
server and so matches no document. -/
def matchesFN : Nat → MFilter → MDoc → Bool
  | 0, _, _ => false
  | fuel + 1, f, doc =>
    match f with
    | .empty => true
    | .and fs => fs.all (fun g => matchesFN fuel g doc)
    | .or fs => fs.any (fun g => matchesFN fuel g doc)
    | .field name c => condMatches c (docLookup doc name)
    | .bare _ => false

/-- Predicate semantics of a filter over a document; fuel 16 dominates
the depth of every filter the compiler builds. -/
def matchesF (f : MFilter) (doc : MDoc) : Bool := matchesFN 16 f doc

/-- The mutable state of the `DataSource` singleton that the update
pipeline touches: the pending update queue, the `AsyncSemaphore` counter
and the `requiredUpdate` flag. -/
structure SrcState where
  updateQueue : List (List InstanceVal)
  semCount : Nat
  requiredUpdate : Bool
  deriving Repr, DecidableEq

/-- The document written for one instance: `row[feature.name] =
i[feature.index]` (an out-of-range index reads `undefined`, which the
driver serializes as null). -/
def mongoRow (fields : List Feature) (i : List InstanceVal) : MDoc :=
  fields.map (fun f => (f.name, (i.get? f.index).getD .nullV))

/-- Embedding of `pushInstances(instances)` (source.ts, lines 171-189).
The backend insert (`insertMany`) is an external collaborator whose
outcome is the parameter `ins`; a backend failure rejects the whole call
before any instance is appended, because the queue appends come after the
awaited insert. -/
def pushInstances (fields : List Feature) (instances : List (List InstanceVal))
    (ins : Except String Unit) (st : SrcState) : Except String SrcState := do
  let _rows := instances.map (mongoRow fields)
  let _ ← ins
  .ok { st with updateQueue := st.updateQueue ++ instances }

/-- The state a caller observes after `pushInstances`: the JavaScript
method mutates `this` only after the awaited insert, so a rejected call
leaves the state as it was. -/
def pushInstancesRun (fields : List Feature) (instances : List (List InstanceVal))
    (ins : Except String Unit) (st : SrcState) : SrcState :=
  match pushInstances fields instances ins st with
  | .ok st' => st'
  | .error _ => st

/-- Embedding of `noticeUpdate()` (source.ts, lines 194-197): set the
`requiredUpdate` flag and release the semaphore. -/
def noticeUpdate (st : SrcState) : SrcState :=
  { st with requiredUpdate := true, semCount := st.semCount + 1 }

/-- The update route's enqueue path (`POST /update/push`): the controller
awaits `pushInstances` on the sanitized body and then calls
`noticeUpdate()`. -/
def pushRoute (fields : List Feature) (instances : List (List InstanceVal))
    (ins : Except String Unit) (st : SrcState) : Except String SrcState :=
  (pushInstances fields instances ins st).map noticeUpdate

/-- Truthiness of a document field value (`!!doc[fieldName]`). -/
def instTruthy : InstanceVal → Bool
  | .nullV => false
  | .strV s => s ≠ ""
  | .numV n => n ≠ 0
  | .boolV b => b
  | .dateV _ => true

/-- Stringification `(x || "") + ""` of a document field value.  (A falsy
value is first replaced by `""`; date rendering is abstract and is never
exercised by the claims, which confine themselves to string-valued
fields.) -/
def instToString : InstanceVal → String
  | .nullV => ""
  | .strV s => s
  | .numV n => if n = 0 then "" else toString n
  | .boolV b => if b then "true" else ""
  | .dateV ms => "Date " ++ toString ms

/-- The ascending document order used by `cursor.sort({field: 1})`: BSON
type rank (null/absent < numbers < strings < booleans < dates), then the
value order within a type. -/
def bsonRank : Option InstanceVal → Nat
  | none => 0
  | some .nullV => 0
  | some (.numV _) => 1
  | some (.strV _) => 2
  | some (.boolV _) => 3
  | some (.dateV _) => 4

/-- Non-strict BSON comparison of optional field values. -/
def bsonLe (a b : Option InstanceVal) : Bool :=
  bsonRank a < bsonRank b ||
    (bsonRank a = bsonRank b &&
      match a, b with
      | some x, some y => bsonLt x y || x = y
      | _, _ => true)

/-- Embedding of `getNominalValues(filter, query, feature)` (source.ts,
lines 303-335) over a pure storage gateway: the collection is the list
`db`, `find` filters by the compiled predicate, `sort` is a stable
ascending sort on the field, `limit(128)` truncates, and the returned
documents are filtered for truthiness of the field and stringified. -/
def getNominalValues (dp : String → Option Int) (db : List MDoc) (fields : List Feature)
    (filter : Option QueryTree) (query : String) (feature : Nat) :
    Except JsErr (List String) :=
  match fields.get? feature with
  | none => .ok []
  | some f =>
    if f.type ≠ .nominal then .ok []
    else do
      let cond ← toMongoFilterOpt dp fields filter
      let fieldName := f.name
      let _q := strToLower query
      let found := (db.filter (fun d => matchesF cond d)).insertionSort
        (fun d1 d2 => bsonLe (docLookup d1 fieldName) (docLookup d2 fieldName))
      let docs := found.take 128
      .ok ((docs.filter (fun d => instTruthy ((docLookup d fieldName).getD .nullV))).map
        (fun d => instToString ((docLookup d fieldName).getD .nullV)))

/-- Fuel-bounded JSON rendering of a query tree (the value the sanitizer's
output denotes when fed back as input).  Fuel 5 exceeds the depth of every
sanitized tree (depth ≤ 4), on which the rendering is exact. -/
def toJSN : Nat → QueryTree → JSVal
  | 0, t =>
    .obj [("type", .str t.type), ("operation", .str t.operation), ("left", .num t.left),
      ("right", match t.right with | none => .null | some s => .str s), ("children", .arr [])]
  | n + 1, t =>
    .obj [("type", .str t.type), ("operation", .str t.operation), ("left", .num t.left),
      ("right", match t.right with | none => .null | some s => .str s),
      ("children", .arr (t.children.map (toJSN n)))]

/-- JSON rendering of a (sanitized, hence depth-bounded) query tree. -/
def queryTreeToJS (t : QueryTree) : JSVal := toJSN 5 t

/-- `depthLE n t`: every node of `t` lies at depth ≤ n below its root. -/
def depthLE : Nat → QueryTree → Bool
  | 0, t => t.children.isEmpty
  | n + 1, t => t.children.all (depthLE n)

/-- `nodesLE16 n t`: every node within the first `n + 1` levels of `t` has
at most 16 children (on trees of depth ≤ n this is every node). -/
def nodesLE16 : Nat → QueryTree → Bool
  | 0, t => t.children.length ≤ 16
  | n + 1, t => (t.children.length ≤ 16 : Bool) && t.children.all (nodesLE16 n)

example : sanitizeQueryTree (.str "x") 0 = .ok defaultNode := by rfl
example : sanitizeQueryTree .null 0 = .error .typeError := by rfl
example :
    sanitizeQueryTree (.obj [("type", .str "NOT"), ("operation", .str "EQ"),
      ("left", .num (.int 2)), ("right", .str "v"), ("children", .arr [.str "x"])]) 0 =
    .ok (.mk "not" "eq" (.int 2) (some "v") [defaultNode]) := by rfl

/-! ## Claim C1 — totality of the sanitizer -/

/-- C1 (claim): `sanitizeQueryTree` never raises, for every input including
`null` and children arrays containing `null`.  The code violates this:
`typeof null === "object"` lets `null` through the object guard, and the
following `tree.type` access throws a `TypeError` — both for a top-level
`null` and for a `null` element of a combinator's children array.  A
malformed non-null input does degrade to the default node. -/
theorem C1_sanitizer_null_crash :
    sanitizeQueryTree .null 0 = .error .typeError ∧
    sanitizeQueryTree (.obj [("type", .str "anyof"), ("children", .arr [.null])]) 0 =
      .error .typeError ∧
    sanitizeQueryTree (.bool true) 0 = .ok defaultNode ∧
    sanitizeQueryTree (.num (.int 7)) 17 = .ok defaultNode := by
  refine ⟨rfl, rfl, rfl, rfl⟩

/-! ## Claim C5 — the instance codec -/

/-- C5 (counterexample): the claim says a date-typed value whose parse
fails, *including `undefined`*, yields the epoch date.  In the code the
`null`/`undefined` check precedes the per-type switch, so
`turnInto(undefined, date)` is `null`, not a date at all. -/
theorem C5_undefined_date_counterexample :
    turnInto dpNone .undefV .date = .nullV ∧ InstanceVal.nullV ≠ InstanceVal.dateV 0 :=
  ⟨rfl, by decide⟩

/-- C5 (amended): `turnInto` is total by construction (every thrown
exception in the date branch is caught and mapped to the epoch); `null` or
`undefined` input returns `null` regardless of the declared type (so an
undefined date input yields `null`, not the epoch); `turnInto("abc",
numeric) = null`; `turnInto("1", logic) = true`; a date-typed value that
passes the null/undefined check but fails to parse yields the epoch date;
nominal values are stringified and truncated to 255 characters. -/
theorem C5_codec_amended :
    (∀ dp ty, turnInto dp .null ty = .nullV ∧ turnInto dp .undefV ty = .nullV) ∧
    (∀ dp, turnInto dp (.str "abc") .numeric = .nullV) ∧
    (∀ dp, turnInto dp (.str "1") .logic = .boolV true) ∧
    (∀ dp s, dp s = none → turnInto dp (.str s) .date = .dateV 0) ∧
    (∀ dp v, jsIsNullOrUndef v = false →
      turnInto dp v .nominal = .strV (strTake (jsToString v) 255)) := by
  refine ⟨fun dp ty => ⟨rfl, rfl⟩, fun dp => rfl, fun dp => rfl, ?_, ?_⟩
  · intro dp s h
    simp [turnInto, jsIsNullOrUndef, jsNewDate, h]
  · intro dp v h
    simp [turnInto, h]

/-- C5 witness: the amended statement applied at concrete inputs. -/
theorem C5_codec_amended_witness :
    turnInto dpNone (.str "zzz") .date = .dateV 0 ∧
    turnInto dpNone (.str "ab") .nominal = .strV (strTake (jsToString (.str "ab")) 255) :=
  ⟨C5_codec_amended.2.2.2.1 dpNone "zzz" rfl, C5_codec_amended.2.2.2.2 dpNone (.str "ab") rfl⟩

/-! ## Claim C7 — the `"null"` operation -/

/-- C7 (code bug): the claim says a `"null"`-operation leaf over a valid
feature compiles to "that feature's field is absent or null".  The code
builds `{$or: [{$exists: false}, {$eq: null}]}` without ever attaching the
feature's field name, so the compiled filter does not depend on the field
at all: under the predicate semantics it matches neither a document where
the field is absent (where the claim demands a match) nor one where it is
present — a real MongoDB server rejects the bare operator objects
outright. -/
theorem C7_null_op_missing_field :
    toMongoFilter dpNone [⟨0, .text, "a"⟩] (.mk "single" "null" (.int 0) none []) =
      .ok (.or [.bare (.exists_ false), .bare (.eq .nullV)]) ∧
    matchesF (.or [.bare (.exists_ false), .bare (.eq .nullV)]) [] = false ∧
    matchesF (.or [.bare (.exists_ false), .bare (.eq .nullV)]) [("a", .strV "x")] = false := by
  refine ⟨rfl, rfl, rfl⟩

/-! ## Claims C9 and C10 — the enqueue path -/

/-- C9 (counterexample): the claim says `pushInstances` itself increments
the wake-up semaphore counter.  It does not: a successful push from a
zero-counter state leaves the counter at zero (the route increments it via
the separate `noticeUpdate()` call). -/
theorem C9_push_no_signal_counterexample :
    pushInstances [⟨0, .text, "a"⟩] [[.strV "x"]] (.ok ()) ⟨[], 0, false⟩ =
      .ok ⟨[[.strV "x"]], 0, false⟩ ∧
    (SrcState.mk [[.strV "x"]] 0 false).semCount ≠ (SrcState.mk [] 0 false).semCount + 1 :=
  ⟨rfl, by decide⟩

/-- C9 (amended): `pushInstances` appends each given instance, in order, to
the tail of the pending update queue but does not itself signal the
worker; the push route then calls `noticeUpdate()`, which sets the update
flag and increments the wake-up semaphore counter, so every successful
enqueue through the route wakes the worker. -/
theorem C9_enqueue_amended :
    ∀ (fields : List Feature) (rows : List (List InstanceVal)) (st : SrcState),
      pushInstances fields rows (.ok ()) st =
        .ok ⟨st.updateQueue ++ rows, st.semCount, st.requiredUpdate⟩ ∧
      noticeUpdate st = ⟨st.updateQueue, st.semCount + 1, true⟩ ∧
      pushRoute fields rows (.ok ()) st =
        .ok ⟨st.updateQueue ++ rows, st.semCount + 1, true⟩ := by
  intro fields rows st
  refine ⟨rfl, rfl, rfl⟩

/-- C10: if the backend insert fails, `pushInstances` rejects with the
backend error and the update queue (indeed the whole observable state) is
unchanged — the queue appends happen only after the awaited insert
succeeds. -/
theorem C10_failed_insert_atomic :
    ∀ (fields : List Feature) (rows : List (List InstanceVal)) (st : SrcState) (e : String),
      pushInstances fields rows (.error e) st = .error e ∧
      pushInstancesRun fields rows (.error e) st = st := by
  intro fields rows st e
  refine ⟨rfl, rfl⟩

/-! ## Claim C3 — bound enforcement by the sanitizer -/

/-- Reduction of `Except` bind on a success. -/
@[simp] theorem exBind_ok (v : α) (f : α → Except ε β) : (Except.ok v >>= f) = f v := rfl

/-- Reduction of `Except` bind on an error. -/
@[simp] theorem exBind_err (e : ε) (f : α → Except ε β) :
    ((Except.error e : Except ε α) >>= f) = .error e := rfl

/-- A successful `mapExc` maps a cons elementwise. -/
theorem mapExc_ok_cons {f : α → Except ε β} {x : α} {xs : List α} {ys : List β}
    (h : mapExc f (x :: xs) = .ok ys) :
    ∃ y ys', f x = .ok y ∧ mapExc f xs = .ok ys' ∧ ys = y :: ys' := by
  cases hx : f x with
  | error e => rw [mapExc, hx] at h; simp at h
  | ok y =>
    cases hxs : mapExc f xs with
    | error e => rw [mapExc, hx] at h; simp [hxs] at h
    | ok ys' =>
      rw [mapExc, hx] at h
      simp [hxs] at h
      exact ⟨y, ys', rfl, rfl, h.symm⟩

/-- A successful `mapExc` preserves the list length. -/
theorem mapExc_ok_length {f : α → Except ε β} :
    ∀ {xs : List α} {ys : List β}, mapExc f xs = .ok ys → ys.length = xs.length := by
  intro xs
  induction xs with
  | nil =>
    intro ys h
    rw [mapExc] at h
    cases h
    rfl
  | cons x xs ih =>
    intro ys h
    obtain ⟨y, ys', _, hxs, rfl⟩ := mapExc_ok_cons h
    simp [ih hxs]

/-- Every element of a successful `mapExc` image comes from some source
element. -/
theorem mapExc_ok_mem {f : α → Except ε β} :
    ∀ {xs : List α} {ys : List β}, mapExc f xs = .ok ys →
      ∀ y ∈ ys, ∃ x ∈ xs, f x = .ok y := by
  intro xs
  induction xs with
  | nil =>
    intro ys h
    rw [mapExc] at h
    cases h
    intro y hy
    cases hy
  | cons x xs ih =>
    intro ys h
    obtain ⟨y, ys', hx, hxs, rfl⟩ := mapExc_ok_cons h
    intro z hz
    rcases List.mem_cons.mp hz with rfl | hz'
    · exact ⟨x, List.mem_cons_self _ _, hx⟩
    · obtain ⟨x', hx', hfx'⟩ := ih hxs z hz'
      exact ⟨x', List.mem_cons_of_mem _ hx', hfx'⟩

/-- `mapExc` is extensional in the function. -/
theorem mapExc_congr {f g : α → Except ε β} :
    ∀ {xs : List α}, (∀ x ∈ xs, f x = g x) → mapExc f xs = mapExc g xs := by
  intro xs
  induction xs with
  | nil => intro _; rfl
  | cons x xs ih =>
    intro h
    rw [mapExc, mapExc, h x (List.mem_cons_self _ _), ih fun a ha => h a (List.mem_cons_of_mem _ ha)]

/-- The normalized (lower-cased, stringified) node type of an object input. -/
def sanTypeRaw (fs : List (String × JSVal)) : String :=
  strToLower (jsToString ((jsLookup fs "type").getD .undefV))

/-- The validated node type the sanitizer assigns to an object input. -/
def sanType (fs : List (String × JSVal)) : String :=
  if validTypes.contains (sanTypeRaw fs) then sanTypeRaw fs else "anyof"

/-- The validated operation. -/
def sanOp (fs : List (String × JSVal)) : String :=
  let o := strToLower (jsToString ((jsLookup fs "operation").getD .undefV))
  if validOps.contains o then o else ""

/-- The validated `left` index. -/
def sanLeft (fs : List (String × JSVal)) : JNum :=
  match (jsLookup fs "left").getD .undefV with
  | .num j => j
  | _ => .int (-1)

/-- The validated `right` literal. -/
def sanRight (fs : List (String × JSVal)) : Option String :=
  match (jsLookup fs "right").getD .undefV with
  | .null => none
  | r =>
    let r0 := jsToString r
    some (if r0.data.length > 1024 then strTake r0 1024 else r0)

/-- The sanitizer's children computation on an object input. -/
def sanChildren (fuel : Nat) (fs : List (String × JSVal)) (d : Nat) :
    Except JsErr (List QueryTree) :=
  match (jsLookup fs "children").getD .undefV with
  | .arr elems =>
    if d < QUERY_TREE_MAX_DEPH ∧ combTypes.contains (sanType fs) then
      mapExc (fun c => sanitizeF fuel c (d + 1)) (elems.take QUERY_TREE_MAX_CHILDREN)
    else .ok []
  | _ => .ok []

/-- The sanitizer on an object input: compute the children effectfully,
then build the node from the validated parts. -/
theorem sanitizeF_obj_eq (fuel : Nat) (fs : List (String × JSVal)) (d : Nat) :
    sanitizeF (fuel + 1) (.obj fs) d =
      (sanChildren fuel fs d) >>= fun cs =>
        .ok (.mk (sanType fs) (sanOp fs) (sanLeft fs) (sanRight fs) cs) := by
  rw [sanitizeF]
  simp only [typeofIsObject, getProp, exBind_ok, eq_self_iff_true, if_true]
  unfold sanChildren sanType sanTypeRaw sanOp sanLeft sanRight
  cases (jsLookup fs "children").getD JSVal.undefV <;> dsimp only <;>
    (repeat' split) <;> rfl

/-- Successful sanitization of an object input, destructured. -/
theorem sanitizeF_obj_ok {fuel : Nat} {fs : List (String × JSVal)} {d : Nat} {t : QueryTree}
    (h : sanitizeF (fuel + 1) (.obj fs) d = .ok t) :
    ∃ cs, sanChildren fuel fs d = .ok cs ∧
      t = .mk (sanType fs) (sanOp fs) (sanLeft fs) (sanRight fs) cs := by
  rw [sanitizeF_obj_eq] at h
  cases hch : sanChildren fuel fs d with
  | error e => rw [hch] at h; simp at h
  | ok cs =>
    rw [hch] at h
    simp at h
    exact ⟨cs, rfl, h.symm⟩

/-- A node with no children is within every depth bound. -/
theorem depthLE_nil {t : QueryTree} (h : t.children = []) (n : Nat) : depthLE n t = true := by
  cases n with
  | zero => simp [depthLE, h]
  | succ m => simp [depthLE, h]

/-- A node with no children satisfies every `nodesLE16` bound. -/
theorem nodesLE16_nil {t : QueryTree} (h : t.children = []) (n : Nat) : nodesLE16 n t = true := by
  cases n with
  | zero => simp [nodesLE16, h]
  | succ m => simp [nodesLE16, h]

/-- The sanitizer on a non-object, non-null input returns the default
node. -/
theorem sanitizeF_prim {fuel d : Nat} {x : JSVal} (hobj : typeofIsObject x = false) :
    sanitizeF (fuel + 1) x d = .ok defaultNode := by
  cases x <;> first | rfl | (simp [typeofIsObject] at hobj)

/-- The sanitizer on an array input: every accessed property is
`undefined`, so the node is fully defaulted (with the `"undefined"`
stringification of the missing `right`) and has no children. -/
theorem sanitizeF_arr (fuel d : Nat) (es : List JSVal) :
    sanitizeF (fuel + 1) (.arr es) d = .ok (.mk "anyof" "" (.int (-1)) (some "undefined") []) :=
  rfl

/-- The sanitizer throws on `null` input. -/
theorem sanitizeF_null (fuel d : Nat) : sanitizeF (fuel + 1) .null d = .error .typeError := rfl

/-- Successful children of the sanitizer: either none, or the elementwise
sanitization of the first 16 elements of the input's children array. -/
theorem sanChildren_ok_cases {fuel : Nat} {fs : List (String × JSVal)} {d : Nat}
    {cs : List QueryTree} (h : sanChildren fuel fs d = .ok cs) :
    cs = [] ∨ ∃ elems : List JSVal,
      mapExc (fun c => sanitizeF fuel c (d + 1)) (elems.take QUERY_TREE_MAX_CHILDREN) = .ok cs := by
  unfold sanChildren at h
  revert h
  cases (jsLookup fs "children").getD JSVal.undefV with
  | arr elems =>
    intro h
    dsimp only at h
    rcases Decidable.em (d < QUERY_TREE_MAX_DEPH ∧ combTypes.contains (sanType fs) = true)
      with hg | hg
    · rw [if_pos hg] at h
      exact Or.inr ⟨elems, h⟩
    · rw [if_neg hg] at h
      cases h
      exact Or.inl rfl
  | null => intro h; cases h; exact Or.inl rfl
  | undefV => intro h; cases h; exact Or.inl rfl
  | bool b => intro h; cases h; exact Or.inl rfl
  | num j => intro h; cases h; exact Or.inl rfl
  | str s => intro h; cases h; exact Or.inl rfl
  | obj o => intro h; cases h; exact Or.inl rfl

/-- At fuel zero a `mapExc` over the sanitizer succeeds only on an empty
list. -/
theorem mapExc_sanitizeF_zero {d : Nat} {l : List JSVal} {cs : List QueryTree}
    (h : mapExc (fun c => sanitizeF 0 c d) l = .ok cs) : cs = [] := by
  cases l with
  | nil => cases h; rfl
  | cons x xs =>
    obtain ⟨y, ys', hy, _, _⟩ := mapExc_ok_cons h
    simp [sanitizeF] at hy

/-- Every tree the sanitizer returns at fuel `n + 1` has depth at most
`n`. -/
theorem sanitizeF_depthLE :
    ∀ (n : Nat) (x : JSVal) (d : Nat) (t : QueryTree),
      sanitizeF (n + 1) x d = .ok t → depthLE n t = true := by
  intro n
  induction n with
  | zero =>
    intro x d t h
    cases x with
    | null => rw [sanitizeF_null] at h; cases h
    | arr es =>
      rw [sanitizeF_arr] at h
      cases h
      exact depthLE_nil (by rfl) 0
    | obj fs =>
      obtain ⟨cs, hcs, rfl⟩ := sanitizeF_obj_ok h
      rcases sanChildren_ok_cases hcs with rfl | ⟨elems, hm⟩
      · exact depthLE_nil (by rfl) 0
      · have hnil := mapExc_sanitizeF_zero hm
        subst hnil
        exact depthLE_nil (by rfl) 0
    | undefV => rw [sanitizeF_prim (by rfl)] at h; cases h; exact depthLE_nil (by rfl) 0
    | bool b => rw [sanitizeF_prim (by rfl)] at h; cases h; exact depthLE_nil (by rfl) 0
    | num j => rw [sanitizeF_prim (by rfl)] at h; cases h; exact depthLE_nil (by rfl) 0
    | str s => rw [sanitizeF_prim (by rfl)] at h; cases h; exact depthLE_nil (by rfl) 0
  | succ m ih =>
    intro x d t h
    cases x with
    | null => rw [sanitizeF_null] at h; cases h
    | arr es =>
      rw [sanitizeF_arr] at h
      cases h
      exact depthLE_nil (by rfl) _
    | obj fs =>
      obtain ⟨cs, hcs, rfl⟩ := sanitizeF_obj_ok h
      rcases sanChildren_ok_cases hcs with rfl | ⟨elems, hm⟩
      · exact depthLE_nil (by rfl) _
      · show cs.all (depthLE m) = true
        rw [List.all_eq_true]
        intro c hc
        obtain ⟨src, _, hsrc⟩ := mapExc_ok_mem hm c hc
        exact ih src (d + 1) c hsrc
    | undefV => rw [sanitizeF_prim (by rfl)] at h; cases h; exact depthLE_nil (by rfl) _
    | bool b => rw [sanitizeF_prim (by rfl)] at h; cases h; exact depthLE_nil (by rfl) _
    | num j => rw [sanitizeF_prim (by rfl)] at h; cases h; exact depthLE_nil (by rfl) _
    | str s => rw [sanitizeF_prim (by rfl)] at h; cases h; exact depthLE_nil (by rfl) _

/-- Every tree the sanitizer returns at fuel `n + 1` keeps at most 16
children at every node. -/
theorem sanitizeF_nodesLE16 :
    ∀ (n : Nat) (x : JSVal) (d : Nat) (t : QueryTree),
      sanitizeF (n + 1) x d = .ok t → nodesLE16 n t = true := by
  intro n
  induction n with
  | zero =>
    intro x d t h
    cases x with
    | null => rw [sanitizeF_null] at h; cases h
    | arr es => rw [sanitizeF_arr] at h; cases h; exact nodesLE16_nil (by rfl) 0
    | obj fs =>
      obtain ⟨cs, hcs, rfl⟩ := sanitizeF_obj_ok h
      rcases sanChildren_ok_cases hcs with rfl | ⟨elems, hm⟩
      · exact nodesLE16_nil (by rfl) 0
      · have hnil := mapExc_sanitizeF_zero hm
        subst hnil
        exact nodesLE16_nil (by rfl) 0
    | undefV => rw [sanitizeF_prim (by rfl)] at h; cases h; exact nodesLE16_nil (by rfl) 0
    | bool b => rw [sanitizeF_prim (by rfl)] at h; cases h; exact nodesLE16_nil (by rfl) 0
    | num j => rw [sanitizeF_prim (by rfl)] at h; cases h; exact nodesLE16_nil (by rfl) 0
    | str s => rw [sanitizeF_prim (by rfl)] at h; cases h; exact nodesLE16_nil (by rfl) 0
  | succ m ih =>
    intro x d t h
    cases x with
    | null => rw [sanitizeF_null] at h; cases h
    | arr es => rw [sanitizeF_arr] at h; cases h; exact nodesLE16_nil (by rfl) _
    | obj fs =>
      obtain ⟨cs, hcs, rfl⟩ := sanitizeF_obj_ok h
      rcases sanChildren_ok_cases hcs with rfl | ⟨elems, hm⟩
      · exact nodesLE16_nil (by rfl) _
      · show ((cs.length ≤ 16 : Bool) && cs.all (nodesLE16 m)) = true
        rw [Bool.and_eq_true]
        constructor
        · have hlen := mapExc_ok_length hm
          rw [decide_eq_true_eq, hlen]
          calc (elems.take QUERY_TREE_MAX_CHILDREN).length ≤ QUERY_TREE_MAX_CHILDREN :=
                List.length_take_le _ _
            _ ≤ 16 := by decide
        · rw [List.all_eq_true]
          intro c hc
          obtain ⟨src, _, hsrc⟩ := mapExc_ok_mem hm c hc
          exact ih src (d + 1) c hsrc
    | undefV => rw [sanitizeF_prim (by rfl)] at h; cases h; exact nodesLE16_nil (by rfl) _
    | bool b => rw [sanitizeF_prim (by rfl)] at h; cases h; exact nodesLE16_nil (by rfl) _
    | num j => rw [sanitizeF_prim (by rfl)] at h; cases h; exact nodesLE16_nil (by rfl) _
    | str s => rw [sanitizeF_prim (by rfl)] at h; cases h; exact nodesLE16_nil (by rfl) _

/-- The sanitizer is fuel-irrelevant once the fuel exceeds the remaining
recursion depth `QUERY_TREE_MAX_DEPH - d`. -/
theorem sanitizeF_fuel_congr :
    ∀ (f g : Nat) (x : JSVal) (d : Nat),
      QUERY_TREE_MAX_DEPH - d < f → QUERY_TREE_MAX_DEPH - d < g →
      sanitizeF f x d = sanitizeF g x d := by
  intro f
  induction f with
  | zero =>
    intro g x d hf hg
    exact absurd hf (by omega)
  | succ f' ih =>
    intro g x d hf hg
    cases g with
    | zero => exact absurd hg (by omega)
    | succ g' =>
      cases x with
      | null => rw [sanitizeF_null, sanitizeF_null]
      | arr es => rw [sanitizeF_arr, sanitizeF_arr]
      | obj fs =>
        rw [sanitizeF_obj_eq, sanitizeF_obj_eq]
        have hch : sanChildren f' fs d = sanChildren g' fs d := by
          unfold sanChildren
          cases (jsLookup fs "children").getD JSVal.undefV <;> try rfl
          case arr elems =>
            dsimp only
            split
            · next hguard =>
              apply mapExc_congr
              intro c _
              have hd4 : d < QUERY_TREE_MAX_DEPH := hguard.1
              have e4 : QUERY_TREE_MAX_DEPH = 4 := rfl
              apply ih
              · omega
              · omega
            · rfl
        rw [hch]
      | undefV => rw [sanitizeF_prim (by rfl), sanitizeF_prim (by rfl)]
      | bool b => rw [sanitizeF_prim (by rfl), sanitizeF_prim (by rfl)]
      | num j => rw [sanitizeF_prim (by rfl), sanitizeF_prim (by rfl)]
      | str s => rw [sanitizeF_prim (by rfl), sanitizeF_prim (by rfl)]

/-- At a depth beyond the recursion bound the children computation yields
nothing. -/
theorem sanChildren_deep {fuel : Nat} {fs : List (String × JSVal)} {d : Nat}
    {cs : List QueryTree} (hd : 4 ≤ d) (h : sanChildren fuel fs d = .ok cs) : cs = [] := by
  unfold sanChildren at h
  revert h
  cases (jsLookup fs "children").getD JSVal.undefV with
  | arr elems =>
    intro h
    dsimp only at h
    rw [if_neg (by
      rintro ⟨hlt, -⟩
      have e4 : QUERY_TREE_MAX_DEPH = 4 := rfl
      omega)] at h
    cases h
    rfl
  | null => intro h; cases h; rfl
  | undefV => intro h; cases h; rfl
  | bool b => intro h; cases h; rfl
  | num j => intro h; cases h; rfl
  | str s => intro h; cases h; rfl
  | obj o => intro h; cases h; rfl

/-- A combinator chain: `anyof` objects nested through `children`, `n + 1`
levels deep. -/
def deepInput : Nat → JSVal
  | 0 => .obj [("type", .str "anyof"), ("children", .arr [])]
  | n + 1 => .obj [("type", .str "anyof"), ("children", .arr [deepInput n])]

/-- An `anyof` node as the sanitizer produces it from a `deepInput` level
(missing `operation`/`left`/`right` default to `""`, `-1` and the
`"undefined"` stringification). -/
def anyofNode (cs : List QueryTree) : QueryTree :=
  .mk "anyof" "" (.int (-1)) (some "undefined") cs

/-- The sanitized form of a combinator chain clipped to `n` further
levels. -/
def deepChain : Nat → QueryTree
  | 0 => anyofNode []
  | n + 1 => anyofNode [deepChain n]

/-- Wrapping a sanitizable input in an `anyof` object adds one level, while
the depth bound allows it. -/
theorem sanitize_wrap {f d : Nat} {x : JSVal} {t : QueryTree} (hd : d < QUERY_TREE_MAX_DEPH)
    (h : sanitizeF f x (d + 1) = .ok t) :
    sanitizeF (f + 1) (.obj [("type", .str "anyof"), ("children", .arr [x])]) d =
      .ok (anyofNode [t]) := by
  rw [sanitizeF_obj_eq]
  have hch : sanChildren f [("type", .str "anyof"), ("children", .arr [x])] d = .ok [t] := by
    unfold sanChildren
    rw [show (jsLookup [("type", JSVal.str "anyof"), ("children", JSVal.arr [x])]
      "children").getD JSVal.undefV = JSVal.arr [x] from rfl]
    dsimp only
    rw [if_pos ⟨hd, by rfl⟩]
    show (sanitizeF f x (d + 1)) >>= _ = _
    rw [h]
    rfl
  rw [hch]
  rfl

/-- At the recursion bound, a chain level sanitizes to a childless `anyof`
node, whatever hangs below it. -/
theorem sanitize_deep_base : ∀ m, sanitizeF 1 (deepInput m) 4 = .ok (anyofNode []) := by
  intro m
  cases m with
  | zero => rfl
  | succ k => rfl

/-- A combinator chain more than four levels deep sanitizes to the clipped
four-level chain. -/
theorem sanitize_deepInput (k : Nat) :
    sanitizeQueryTree (deepInput (k + 4)) 0 = .ok (deepChain 4) := by
  have h4 := sanitize_deep_base k
  have h3 : sanitizeF 2 (deepInput (k + 1)) 3 = .ok (deepChain 1) :=
    sanitize_wrap (by decide) h4
  have h2 : sanitizeF 3 (deepInput (k + 2)) 2 = .ok (deepChain 2) :=
    sanitize_wrap (by decide) h3
  have h1 : sanitizeF 4 (deepInput (k + 3)) 1 = .ok (deepChain 3) :=
    sanitize_wrap (by decide) h2
  exact sanitize_wrap (by decide) h1

/-- C3: bound enforcement by the sanitizer.  Every successfully sanitized
tree (from depth 0) has every node at depth at most 4 with at most 16
children; when the input is an object of combinator type with an array of
children, the output's children are exactly the sanitized forms of the
first 16 elements, in order (extras dropped); from depth 4 on (in
particular for the depth-4 recursive calls) the output has no children;
and a combinator chain nested deeper than depth 4 sanitizes to the
four-level clipped chain, whose depth is exactly 4. -/
theorem C3_sanitizer_bounds :
    (∀ (x : JSVal) (t : QueryTree), sanitizeQueryTree x 0 = .ok t →
      depthLE 4 t = true ∧ nodesLE16 4 t = true) ∧
    (∀ (fs : List (String × JSVal)) (elems : List JSVal) (t : QueryTree),
      sanitizeQueryTree (.obj fs) 0 = .ok t →
      (jsLookup fs "children").getD .undefV = .arr elems →
      combTypes.contains (sanType fs) = true →
      mapExc (fun c => sanitizeQueryTree c 1) (elems.take QUERY_TREE_MAX_CHILDREN) =
        .ok t.children) ∧
    (∀ (x : JSVal) (d : Nat) (t : QueryTree), 4 ≤ d → sanitizeQueryTree x d = .ok t →
      t.children = []) ∧
    (∀ n, 4 ≤ n → sanitizeQueryTree (deepInput n) 0 = .ok (deepChain 4) ∧
      depthLE 3 (deepChain 4) = false) := by
  refine ⟨?_, ?_, ?_, ?_⟩
  · intro x t h
    exact ⟨sanitizeF_depthLE 4 x 0 t h, sanitizeF_nodesLE16 4 x 0 t h⟩
  · intro fs elems t h hcr hcomb
    obtain ⟨cs, hcs, rfl⟩ := sanitizeF_obj_ok h
    show mapExc _ _ = .ok cs
    unfold sanChildren at hcs
    rw [hcr] at hcs
    dsimp only at hcs
    rw [if_pos ⟨by decide, hcomb⟩] at hcs
    rw [← hcs]
    apply mapExc_congr
    intro c _
    exact (sanitizeF_fuel_congr 4 5 c 1 (by decide) (by decide)).symm
  · intro x d t hd h
    cases x with
    | null =>
      rw [show sanitizeQueryTree JSVal.null d = .error .typeError from rfl] at h
      cases h
    | arr es =>
      rw [show sanitizeQueryTree (JSVal.arr es) d =
        .ok (.mk "anyof" "" (.int (-1)) (some "undefined") []) from rfl] at h
      cases h
      rfl
    | obj fs =>
      obtain ⟨cs, hcs, rfl⟩ := sanitizeF_obj_ok h
      have := sanChildren_deep hd hcs
      subst this
      rfl
    | undefV =>
      rw [show sanitizeQueryTree JSVal.undefV d = .ok defaultNode from rfl] at h
      cases h
      rfl
    | bool b =>
      rw [show sanitizeQueryTree (JSVal.bool b) d = .ok defaultNode from rfl] at h
      cases h
      rfl
    | num j =>
      rw [show sanitizeQueryTree (JSVal.num j) d = .ok defaultNode from rfl] at h
      cases h
      rfl
    | str s =>
      rw [show sanitizeQueryTree (JSVal.str s) d = .ok defaultNode from rfl] at h
      cases h
      rfl
  · intro n hn
    obtain ⟨k, rfl⟩ := Nat.exists_eq_add_of_le hn
    rw [Nat.add_comm]
    exact ⟨sanitize_deepInput k, by decide⟩

/-- C3 witness: the bound theorem applied at concrete inputs (a chain six
levels deep, a two-child `allof` object, and a primitive input sanitized
at depth 9). -/
theorem C3_sanitizer_bounds_witness :
    (depthLE 4 (deepChain 4) = true ∧ nodesLE16 4 (deepChain 4) = true) ∧
    mapExc (fun c => sanitizeQueryTree c 1) ([JSVal.str "q"].take QUERY_TREE_MAX_CHILDREN) =
      .ok (QueryTree.mk "allof" "" (.int (-1)) (some "undefined") [defaultNode]).children ∧
    defaultNode.children = [] ∧
    (sanitizeQueryTree (deepInput 6) 0 = .ok (deepChain 4) ∧
      depthLE 3 (deepChain 4) = false) := by
  refine ⟨?_, ?_, ?_, C3_sanitizer_bounds.2.2.2 6 (by decide)⟩
  · exact C3_sanitizer_bounds.1 (deepInput 6) (deepChain 4)
      (C3_sanitizer_bounds.2.2.2 6 (by decide)).1
  · exact C3_sanitizer_bounds.2.1 [("type", .str "allof"), ("children", .arr [.str "q"])]
      [.str "q"] (.mk "allof" "" (.int (-1)) (some "undefined") [defaultNode])
      (by rfl) (by rfl) (by rfl)
  · exact C3_sanitizer_bounds.2.2.1 (.str "x") 9 defaultNode (by omega) (by rfl)

/-! ## Claim C4 — idempotence of the sanitizer -/

/-- The field list of the JSON rendering of a tree (children rendered at
level `m`). -/
def treeFields (m : Nat) (t : QueryTree) : List (String × JSVal) :=
  [("type", .str t.type), ("operation", .str t.operation), ("left", .num t.left),
    ("right", match t.right with | none => .null | some s => .str s),
    ("children", .arr (t.children.map (toJSN m)))]

/-- `toJSN` at positive fuel renders the five fields. -/
theorem toJSN_succ (m : Nat) (t : QueryTree) : toJSN (m + 1) t = .obj (treeFields m t) := rfl

/-- A recognized node type is already lower-case. -/
theorem strToLower_validType {ty : String} (h : validTypes.contains ty = true) :
    strToLower ty = ty := by
  have hm : ty ∈ validTypes := by
    simpa using h
  fin_cases hm <;> rfl

/-- A recognized operation is already lower-case. -/
theorem strToLower_validOp {op : String} (h : validOps.contains op = true) :
    strToLower op = op := by
  have hm : op ∈ validOps := by
    simpa using h
  fin_cases hm <;> rfl

/-- The type the sanitizer assigns is always recognized. -/
theorem sanType_valid (fs : List (String × JSVal)) : validTypes.contains (sanType fs) = true := by
  unfold sanType
  split
  · assumption
  · decide

/-- The operation the sanitizer assigns is empty or recognized. -/
theorem sanOp_valid (fs : List (String × JSVal)) :
    sanOp fs = "" ∨ validOps.contains (sanOp fs) = true := by
  unfold sanOp
  dsimp only
  split
  · right; assumption
  · left; rfl

/-- The right literal the sanitizer assigns is null or at most 1024
characters. -/
theorem sanRight_bounded (fs : List (String × JSVal)) :
    sanRight fs = none ∨ ∃ s, sanRight fs = some s ∧ s.data.length ≤ 1024 := by
  unfold sanRight
  cases (jsLookup fs "right").getD JSVal.undefV with
  | null => exact Or.inl rfl
  | undefV =>
    refine Or.inr ⟨_, rfl, ?_⟩
    split
    · next hgt => simp [strTake, List.length_take]
    · next hle => omega
  | bool b =>
    refine Or.inr ⟨_, rfl, ?_⟩
    split
    · next hgt => simp [strTake, List.length_take]
    · next hle => omega
  | num j =>
    refine Or.inr ⟨_, rfl, ?_⟩
    split
    · next hgt => simp [strTake, List.length_take]
    · next hle => omega
  | str s =>
    refine Or.inr ⟨_, rfl, ?_⟩
    split
    · next hgt => simp [strTake, List.length_take]
    · next hle => omega
  | arr es =>
    refine Or.inr ⟨_, rfl, ?_⟩
    split
    · next hgt => simp [strTake, List.length_take]
    · next hle => omega
  | obj o =>
    refine Or.inr ⟨_, rfl, ?_⟩
    split
    · next hgt => simp [strTake, List.length_take]
    · next hle => omega

/-- Re-sanitizing the rendered `type` recovers it. -/
theorem sanType_treeFields (m : Nat) (t : QueryTree)
    (h : validTypes.contains t.type = true) : sanType (treeFields m t) = t.type := by
  unfold sanType sanTypeRaw
  rw [show (jsLookup (treeFields m t) "type").getD JSVal.undefV = .str t.type from rfl]
  rw [show jsToString (.str t.type) = t.type from rfl]
  rw [strToLower_validType h, if_pos h]

/-- Re-sanitizing the rendered `operation` recovers it. -/
theorem sanOp_treeFields (m : Nat) (t : QueryTree)
    (h : t.operation = "" ∨ validOps.contains t.operation = true) :
    sanOp (treeFields m t) = t.operation := by
  unfold sanOp
  rw [show (jsLookup (treeFields m t) "operation").getD JSVal.undefV = .str t.operation from rfl]
  rw [show jsToString (.str t.operation) = t.operation from rfl]
  rcases h with h | h
  · rw [h]
    decide
  · rw [strToLower_validOp h, if_pos h]

/-- Re-sanitizing the rendered `left` recovers it. -/
theorem sanLeft_treeFields (m : Nat) (t : QueryTree) : sanLeft (treeFields m t) = t.left := by
  unfold sanLeft
  cases t.right <;> rfl

/-- Re-sanitizing the rendered `right` recovers it. -/
theorem sanRight_treeFields (m : Nat) (t : QueryTree)
    (h : t.right = none ∨ ∃ s, t.right = some s ∧ s.data.length ≤ 1024) :
    sanRight (treeFields m t) = t.right := by
  unfold sanRight
  rw [show (jsLookup (treeFields m t) "right").getD JSVal.undefV =
    (match t.right with | none => JSVal.null | some s => JSVal.str s) from rfl]
  rcases h with h | ⟨s, h, hlen⟩ <;> rw [h]
  dsimp only
  rw [show jsToString (.str s) = s from rfl, if_neg (by omega)]

/-- The children computation on a rendered tree. -/
theorem sanChildren_treeFields (fuel m : Nat) (t : QueryTree) (d : Nat) :
    sanChildren fuel (treeFields m t) d =
      if d < QUERY_TREE_MAX_DEPH ∧ combTypes.contains (sanType (treeFields m t)) = true then
        mapExc (fun c => sanitizeF fuel c (d + 1))
          ((t.children.map (toJSN m)).take QUERY_TREE_MAX_CHILDREN)
      else .ok [] := by
  unfold sanChildren
  rw [show (jsLookup (treeFields m t) "children").getD JSVal.undefV =
    .arr (t.children.map (toJSN m)) from rfl]

/-- A rendered childless tree re-sanitizes to no children. -/
theorem sanChildren_nilChildren {fuel m d : Nat} {t : QueryTree} (hc : t.children = []) :
    sanChildren fuel (treeFields m t) d = .ok [] := by
  rw [sanChildren_treeFields, hc]
  split <;> rfl

/-- When the children guard fails, the sanitizer keeps no children. -/
theorem sanChildren_guard_false {fuel : Nat} {fs : List (String × JSVal)} {d : Nat}
    {cs : List QueryTree}
    (hg : ¬(d < QUERY_TREE_MAX_DEPH ∧ combTypes.contains (sanType fs) = true))
    (h : sanChildren fuel fs d = .ok cs) : cs = [] := by
  unfold sanChildren at h
  revert h
  cases (jsLookup fs "children").getD JSVal.undefV with
  | arr elems =>
    intro h
    dsimp only at h
    rw [if_neg hg] at h
    cases h
    rfl
  | null => intro h; cases h; rfl
  | undefV => intro h; cases h; rfl
  | bool b => intro h; cases h; rfl
  | num j => intro h; cases h; rfl
  | str s => intro h; cases h; rfl
  | obj o => intro h; cases h; rfl

/-- Mapping an effectful function over a rendered list recovers the
originals when each rendering does. -/
theorem mapExc_map_ok {f : β → Except ε γ} {g : γ → β} :
    ∀ {cs : List γ}, (∀ c ∈ cs, f (g c) = .ok c) → mapExc f (cs.map g) = .ok cs := by
  intro cs
  induction cs with
  | nil => intro _; rfl
  | cons c cs ihl =>
    intro h
    rw [List.map_cons, mapExc, h c (List.mem_cons_self _ _),
      ihl fun a ha => h a (List.mem_cons_of_mem _ ha)]
    rfl

/-- Shape facts about every sanitizer output: recognized type, empty or
recognized operation, null or length-bounded right literal. -/
theorem sanitizeF_shape {fuel : Nat} {x : JSVal} {d : Nat} {t : QueryTree}
    (h : sanitizeF (fuel + 1) x d = .ok t) :
    validTypes.contains t.type = true ∧
      (t.operation = "" ∨ validOps.contains t.operation = true) ∧
      (t.right = none ∨ ∃ s, t.right = some s ∧ s.data.length ≤ 1024) := by
  cases x with
  | null => rw [sanitizeF_null] at h; cases h
  | arr es =>
    rw [sanitizeF_arr] at h
    cases h
    exact ⟨by decide, Or.inl rfl, Or.inr ⟨"undefined", rfl, by decide⟩⟩
  | obj fs =>
    obtain ⟨cs, hcs, rfl⟩ := sanitizeF_obj_ok h
    exact ⟨sanType_valid fs, sanOp_valid fs, sanRight_bounded fs⟩
  | undefV =>
    rw [sanitizeF_prim (by rfl)] at h
    cases h
    exact ⟨by decide, Or.inl rfl, Or.inr ⟨"", rfl, by decide⟩⟩
  | bool b =>
    rw [sanitizeF_prim (by rfl)] at h
    cases h
    exact ⟨by decide, Or.inl rfl, Or.inr ⟨"", rfl, by decide⟩⟩
  | num j =>
    rw [sanitizeF_prim (by rfl)] at h
    cases h
    exact ⟨by decide, Or.inl rfl, Or.inr ⟨"", rfl, by decide⟩⟩
  | str s =>
    rw [sanitizeF_prim (by rfl)] at h
    cases h
    exact ⟨by decide, Or.inl rfl, Or.inr ⟨"", rfl, by decide⟩⟩

/-- Every fuel-1 sanitizer output is childless. -/
theorem sanitizeF_zero_children {x : JSVal} {d : Nat} {t : QueryTree}
    (h : sanitizeF 1 x d = .ok t) : t.children = [] := by
  cases x with
  | null => rw [sanitizeF_null] at h; cases h
  | arr es => rw [sanitizeF_arr] at h; cases h; rfl
  | obj fs =>
    obtain ⟨cs, hcs, rfl⟩ := sanitizeF_obj_ok h
    rcases sanChildren_ok_cases hcs with rfl | ⟨elems, hmx⟩
    · rfl
    · have := mapExc_sanitizeF_zero hmx
      subst this
      rfl
  | undefV => rw [sanitizeF_prim (by rfl)] at h; cases h; rfl
  | bool b => rw [sanitizeF_prim (by rfl)] at h; cases h; rfl
  | num j => rw [sanitizeF_prim (by rfl)] at h; cases h; rfl
  | str s => rw [sanitizeF_prim (by rfl)] at h; cases h; rfl

/-- Re-sanitizing a rendered tree succeeds once its parts are in canonical
form and its children re-sanitize. -/
theorem sanitizeF_rerun_core {n m d : Nat} {t : QueryTree}
    (ha : validTypes.contains t.type = true)
    (hb : t.operation = "" ∨ validOps.contains t.operation = true)
    (hc : t.right = none ∨ ∃ s, t.right = some s ∧ s.data.length ≤ 1024)
    (hd : sanChildren n (treeFields m t) d = .ok t.children) :
    sanitizeF (n + 1) (toJSN (m + 1) t) d = .ok t := by
  rw [toJSN_succ, sanitizeF_obj_eq, hd]
  simp only [exBind_ok]
  rw [sanType_treeFields m t ha, sanOp_treeFields m t hb, sanLeft_treeFields m t,
    sanRight_treeFields m t hc]
  cases t
  rfl

/-- Feeding a sanitizer output back through the sanitizer (rendered to
JSON at a sufficient level) returns it unchanged. -/
theorem sanitizeF_rerun :
    ∀ (n : Nat) (x : JSVal) (d : Nat) (t : QueryTree),
      sanitizeF (n + 1) x d = .ok t →
      ∀ m, n ≤ m → sanitizeF (n + 1) (toJSN (m + 1) t) d = .ok t := by
  intro n
  induction n with
  | zero =>
    intro x d t h m _
    obtain ⟨ha, hb, hc⟩ := sanitizeF_shape h
    have hc0 := sanitizeF_zero_children h
    exact sanitizeF_rerun_core ha hb hc (by rw [hc0]; exact sanChildren_nilChildren hc0)
  | succ k ih =>
    intro x d t h m hm
    obtain ⟨m', rfl⟩ : ∃ m', m = m' + 1 := ⟨m - 1, by omega⟩
    obtain ⟨ha, hb, hc⟩ := sanitizeF_shape h
    cases x with
    | null => rw [sanitizeF_null] at h; cases h
    | arr es =>
      rw [sanitizeF_arr] at h
      cases h
      exact sanitizeF_rerun_core ha hb hc (sanChildren_nilChildren rfl)
    | undefV =>
      rw [sanitizeF_prim (by rfl)] at h
      cases h
      exact sanitizeF_rerun_core ha hb hc (sanChildren_nilChildren rfl)
    | bool b =>
      rw [sanitizeF_prim (by rfl)] at h
      cases h
      exact sanitizeF_rerun_core ha hb hc (sanChildren_nilChildren rfl)
    | num j =>
      rw [sanitizeF_prim (by rfl)] at h
      cases h
      exact sanitizeF_rerun_core ha hb hc (sanChildren_nilChildren rfl)
    | str s =>
      rw [sanitizeF_prim (by rfl)] at h
      cases h
      exact sanitizeF_rerun_core ha hb hc (sanChildren_nilChildren rfl)
    | obj fs =>
      obtain ⟨cs, hcs, rfl⟩ := sanitizeF_obj_ok h
      apply sanitizeF_rerun_core ha hb hc
      rw [sanChildren_treeFields]
      by_cases hg : d < QUERY_TREE_MAX_DEPH ∧ combTypes.contains (sanType fs) = true
      · rw [if_pos (by
          rw [sanType_treeFields _ _ ha]
          exact hg)]
        show mapExc _ ((cs.map _).take _) = .ok cs
        rcases sanChildren_ok_cases hcs with rfl | ⟨elems, hmx⟩
        · rfl
        · have hlen : cs.length ≤ QUERY_TREE_MAX_CHILDREN := by
            rw [mapExc_ok_length hmx]
            exact List.length_take_le _ _
          rw [List.take_of_length_le (by simpa using hlen)]
          apply mapExc_map_ok
          intro c hcmem
          obtain ⟨src, _, hsrc⟩ := mapExc_ok_mem hmx c hcmem
          exact ih src (d + 1) c hsrc m' (by omega)
      · rw [if_neg (by
          rw [sanType_treeFields _ _ ha]
          exact hg)]
        have : cs = [] := sanChildren_guard_false hg hcs
        subst this
        rfl

/-- C4: sanitization is idempotent.  For every input `x`, re-sanitizing the
sanitizer's output (rendered back to JSON) reproduces it exactly; when the
first sanitization throws, so does the composite, with the same error. -/
theorem C4_sanitize_idempotent (x : JSVal) :
    (sanitizeQueryTree x 0 >>= fun t => sanitizeQueryTree (queryTreeToJS t) 0) =
      sanitizeQueryTree x 0 := by
  cases h : sanitizeQueryTree x 0 with
  | error e => rfl
  | ok t =>
    show sanitizeQueryTree (queryTreeToJS t) 0 = .ok t
    exact sanitizeF_rerun 4 x 0 t h 4 (by omega)

example :
    (sanitizeQueryTree (.obj [("type", .str "NOT"), ("children", .arr [.num (.int 3)])]) 0 >>=
      fun t => sanitizeQueryTree (queryTreeToJS t) 0) =
    sanitizeQueryTree (.obj [("type", .str "NOT"), ("children", .arr [.num (.int 3)])]) 0 := by
  rfl

/-! ## Claim C2 — De Morgan negation in the compiler -/

/-- A `not` combinator node (operation/left/right unused by the compiler on
combinator types). -/
def mkNot (cs : List QueryTree) : QueryTree := .mk "not" "" (.int (-1)) (some "") cs

/-- An `allof` combinator node. -/
def mkAllof (cs : List QueryTree) : QueryTree := .mk "allof" "" (.int (-1)) (some "") cs

/-- An `anyof` combinator node. -/
def mkAnyof (cs : List QueryTree) : QueryTree := .mk "anyof" "" (.int (-1)) (some "") cs

/-- The comparison operations of a leaf. -/
def cmpOps : List String := ["eq", "lt", "le", "lte", "gt", "ge", "gte"]

/-- The string-match operations of a leaf. -/
def strOps : List String := ["cn", "cni", "sw", "swi", "ew", "ewi"]

/-- A valid leaf: a `single` node with a non-null right literal, a `left`
that indexes an existing feature, and a recognized comparison operation (a
string-match operation additionally requires a string-typed feature, since
the compiler calls `.replace` on the coerced literal). -/
def validLeaf (fts : List Feature) (q : QueryTree) : Bool :=
  q.type == "single" && q.right.isSome &&
    (match jsIndex fts q.left with
     | some f =>
       cmpOps.contains q.operation ||
         (strOps.contains q.operation && (f.type == .nominal || f.type == .text))
     | none => false)

/-- A valid leaf compiles, at any fuel, to a single-field condition. -/
theorem validLeaf_compile {dp : String → Option Int} {fts : List Feature} {q : QueryTree}
    (h : validLeaf fts q = true) :
    ∃ nm c, ∀ fuel, toMongoFilterN dp fts (fuel + 1) q = .ok (.field nm c) := by
  unfold validLeaf at h
  rw [Bool.and_eq_true, Bool.and_eq_true] at h
  obtain ⟨⟨hty, hrs⟩, hop⟩ := h
  obtain ⟨s, hr⟩ : ∃ s, q.right = some s := Option.isSome_iff_exists.mp hrs
  revert hop
  cases hidx : jsIndex fts q.left with
  | none =>
    intro hop
    simp at hop
  | some f =>
    intro hop
    cases q with
    | mk qt qo ql qr qc =>
      have hty' : qt = "single" := by simpa [QueryTree.type] using hty
      have hr' : qr = some s := hr
      subst hty'
      subst hr'
      rw [Bool.or_eq_true] at hop
      rcases hop with hcmp | hboth
      · have hlist : qo = "eq" ∨ qo = "lt" ∨ qo = "le" ∨ qo = "lte" ∨ qo = "gt" ∨ qo = "ge" ∨
            qo = "gte" := by
          simpa [cmpOps, QueryTree.operation] using hcmp
        rcases hlist with rfl | rfl | rfl | rfl | rfl | rfl | rfl <;>
          exact ⟨f.name, _, fun fuel => by
            rw [toMongoFilterN, hidx]
            rfl⟩
      · rw [Bool.and_eq_true] at hboth
        obtain ⟨hstr, htyp⟩ := hboth
        obtain ⟨fi, ftype, fname⟩ := f
        have hlist : qo = "cn" ∨ qo = "cni" ∨ qo = "sw" ∨ qo = "swi" ∨ qo = "ew" ∨
            qo = "ewi" := by
          simpa [strOps, QueryTree.operation] using hstr
        have htyp' : ftype = .nominal ∨ ftype = .text := by
          simpa using htyp
        rcases hlist with rfl | rfl | rfl | rfl | rfl | rfl <;>
          rcases htyp' with rfl | rfl <;>
          exact ⟨fname, _, fun fuel => by
            rw [toMongoFilterN, hidx]
            rfl⟩

/-- `mapExc` over a singleton. -/
theorem mapExc_single {f : α → Except ε β} {a : α} {fa : β} (ha : f a = .ok fa) :
    mapExc f [a] = .ok [fa] := by
  rw [mapExc, ha]
  rfl

/-- `mapExc` over a pair. -/
theorem mapExc_pair {f : α → Except ε β} {a b : α} {fa fb : β} (ha : f a = .ok fa)
    (hb : f b = .ok fb) : mapExc f [a, b] = .ok [fa, fb] := by
  rw [mapExc, ha]
  simp only [exBind_ok]
  rw [mapExc_single hb]
  rfl

/-- The compiler on an `allof` node, given the compiled children. -/
theorem toMongoFilterN_allof (dp : String → Option Int) (fts : List Feature) (fuel : Nat)
    (cs : List QueryTree) (rs : List MFilter)
    (h : mapExc (toMongoFilterN dp fts fuel) cs = .ok rs) :
    toMongoFilterN dp fts (fuel + 1) (mkAllof cs) =
      if rs.length = 0 then .ok .empty else .ok (.and rs) := by
  show (mapExc (toMongoFilterN dp fts fuel) cs) >>= _ = _
  rw [h]
  rfl

/-- The compiler on an `anyof` node, given the compiled children. -/
theorem toMongoFilterN_anyof (dp : String → Option Int) (fts : List Feature) (fuel : Nat)
    (cs : List QueryTree) (rs : List MFilter)
    (h : mapExc (toMongoFilterN dp fts fuel) cs = .ok rs) :
    toMongoFilterN dp fts (fuel + 1) (mkAnyof cs) =
      if rs.length = 0 then .ok .empty else .ok (.or rs) := by
  show (mapExc (toMongoFilterN dp fts fuel) cs) >>= _ = _
  rw [h]
  rfl

/-- The compiler on a `not` node, given the compiled children. -/
theorem toMongoFilterN_not (dp : String → Option Int) (fts : List Feature) (fuel : Nat)
    (cs : List QueryTree) (rs : List MFilter)
    (h : mapExc (toMongoFilterN dp fts fuel) cs = .ok rs) :
    toMongoFilterN dp fts (fuel + 1) (mkNot cs) =
      if 0 < rs.length then .ok (negateMongoQuery (.and rs)) else .ok .empty := by
  show (mapExc (toMongoFilterN dp fts fuel) cs) >>= _ = _
  rw [h]
  rfl

/-- C2: De Morgan equivalence of the compiler.  For valid leaf nodes `A`
and `B`, the filter compiled from `not(allof(A, B))` and the filter
compiled from `anyof(not(A), not(B))` are logically equivalent as
predicates over documents: negation is pushed through `$and`/`$or` by
`negateMongoQuery` and an atomic comparison is negated by wrapping it in
`$not` (its logical complement under the predicate semantics). -/
theorem C2_de_morgan (dp : String → Option Int) (fts : List Feature) (A B : QueryTree)
    (doc : MDoc) (hA : validLeaf fts A = true) (hB : validLeaf fts B = true) :
    ∃ f g, toMongoFilter dp fts (mkNot [mkAllof [A, B]]) = .ok f ∧
      toMongoFilter dp fts (mkAnyof [mkNot [A], mkNot [B]]) = .ok g ∧
      matchesF f doc = matchesF g doc := by
  obtain ⟨nmA, cA, hfA⟩ := @validLeaf_compile dp fts A hA
  obtain ⟨nmB, cB, hfB⟩ := @validLeaf_compile dp fts B hB
  refine ⟨.or [.or [.field nmA (.not cA), .field nmB (.not cB)]],
    .or [.or [.field nmA (.not cA)], .or [.field nmB (.not cB)]], ?_, ?_, ?_⟩
  · have hallof : toMongoFilterN dp fts 7 (mkAllof [A, B]) =
        .ok (.and [.field nmA cA, .field nmB cB]) := by
      rw [toMongoFilterN_allof dp fts 6 [A, B] [.field nmA cA, .field nmB cB]
        (mapExc_pair (hfA 5) (hfB 5))]
      rfl
    show toMongoFilterN dp fts 8 (mkNot [mkAllof [A, B]]) = _
    rw [toMongoFilterN_not dp fts 7 [mkAllof [A, B]] [.and [.field nmA cA, .field nmB cB]]
      (mapExc_single hallof)]
    rfl
  · have hnotA : toMongoFilterN dp fts 7 (mkNot [A]) = .ok (.or [.field nmA (.not cA)]) := by
      rw [toMongoFilterN_not dp fts 6 [A] [.field nmA cA] (mapExc_single (hfA 5))]
      rfl
    have hnotB : toMongoFilterN dp fts 7 (mkNot [B]) = .ok (.or [.field nmB (.not cB)]) := by
      rw [toMongoFilterN_not dp fts 6 [B] [.field nmB cB] (mapExc_single (hfB 5))]
      rfl
    show toMongoFilterN dp fts 8 (mkAnyof [mkNot [A], mkNot [B]]) = _
    rw [toMongoFilterN_anyof dp fts 7 [mkNot [A], mkNot [B]]
      [.or [.field nmA (.not cA)], .or [.field nmB (.not cB)]] (mapExc_pair hnotA hnotB)]
    rfl
  · show ((condMatches (.not cA) (docLookup doc nmA) ||
        (condMatches (.not cB) (docLookup doc nmB) || false)) || false) =
      ((condMatches (.not cA) (docLookup doc nmA) || false) ||
        ((condMatches (.not cB) (docLookup doc nmB) || false) || false))
    cases condMatches (.not cA) (docLookup doc nmA) <;>
      cases condMatches (.not cB) (docLookup doc nmB) <;> rfl

/-- C2 witness: the equivalence applied to two concrete valid leaves over a
two-feature schema and a concrete document. -/
theorem C2_de_morgan_witness :
    ∃ f g,
      toMongoFilter dpNone [⟨0, .numeric, "a"⟩, ⟨1, .text, "b"⟩]
        (mkNot [mkAllof [.mk "single" "eq" (.int 0) (some "5") [],
          .mk "single" "cn" (.int 1) (some "x") []]]) = .ok f ∧
      toMongoFilter dpNone [⟨0, .numeric, "a"⟩, ⟨1, .text, "b"⟩]
        (mkAnyof [mkNot [.mk "single" "eq" (.int 0) (some "5") []],
          mkNot [.mk "single" "cn" (.int 1) (some "x") []]]) = .ok g ∧
      matchesF f [("a", .numV 5), ("b", .strV "xyz")] =
        matchesF g [("a", .numV 5), ("b", .strV "xyz")] :=
  C2_de_morgan dpNone [⟨0, .numeric, "a"⟩, ⟨1, .text, "b"⟩]
    (.mk "single" "eq" (.int 0) (some "5") []) (.mk "single" "cn" (.int 1) (some "x") [])
    [("a", .numV 5), ("b", .strV "xyz")] (by rfl) (by rfl)

/-! ## Claim C6 — literal semantics of the string-match operations -/

/-- The tokens of an escaped literal: one literal atom per character. -/
def litToks (s : List Char) : List RTok := s.map (fun c => .atom (.lit c))

/-- An escaped metacharacter is never a letter or digit. -/
theorem isRegexMeta_not_alphanum {c : Char} (h : isRegexMeta c = true) :
    c.isAlphanum = false := by
  rw [isRegexMeta, Bool.or_eq_true] at h
  rcases h with h | h <;>
    · have hm : c ∈ _ := of_decide_eq_true h
      fin_cases hm <;> decide

/-- Every unmodelled plain character is a metacharacter (hence always
escaped in an escaped literal). -/
theorem plainUnmodelled_meta {c : Char} (h : plainUnmodelled c = true) :
    isRegexMeta c = true := by
  rw [plainUnmodelled] at h
  have hm : c ∈ _ := of_decide_eq_true h
  fin_cases hm <;> decide

/-- Reading an atom at an escaped metacharacter. -/
theorem readAtom_escaped {c : Char} (rest : List Char) (h : isRegexMeta c = true) :
    readAtom ('\\' :: c :: rest) = some (.lit c, rest) := by
  rw [readAtom.eq_def]
  dsimp only
  rw [if_pos rfl]
  show (if c.isAlphanum then none else some (RAtom.lit c, rest)) = _
  rw [isRegexMeta_not_alphanum h]
  rfl

/-- Reading an atom at a plain (non-meta) character. -/
theorem readAtom_plain {c : Char} (rest : List Char) (h : isRegexMeta c = false) :
    readAtom (c :: rest) = some (.lit c, rest) := by
  have hbs : ¬c = '\\' := by
    intro hc
    rw [hc] at h
    exact absurd h (by decide)
  have hdot : ¬c = '.' := by
    intro hc
    rw [hc] at h
    exact absurd h (by decide)
  have hdol : ¬c = '$' := by
    intro hc
    rw [hc] at h
    exact absurd h (by decide)
  have hun : ¬plainUnmodelled c = true := by
    intro hc
    rw [plainUnmodelled_meta hc] at h
    cases h
  rw [readAtom.eq_def]
  dsimp only
  rw [if_neg hbs, if_neg hdot, if_neg (by
    rintro (hc | hc)
    · exact hdol hc
    · exact hun hc)]

/-- The head of an escaped literal (with a safe rest appended) is either
a backslash or a non-metacharacter, never a metacharacter like `*` or
`^`. -/
theorem escL_append_head {s rest : List Char} {d : Char} {tail : List Char}
    (h : escapeRegExpL s ++ rest = d :: tail) :
    (s = [] ∧ rest = d :: tail) ∨ d = '\\' ∨ isRegexMeta d = false := by
  cases s with
  | nil => exact Or.inl ⟨rfl, h⟩
  | cons c s' =>
    rw [escapeRegExpL] at h
    by_cases hm : isRegexMeta c = true
    · rw [if_pos hm] at h
      injection h with h1 _
      exact Or.inr (Or.inl h1.symm)
    · rw [if_neg hm] at h
      injection h with h1 _
      subst h1
      rw [Bool.not_eq_true] at hm
      exact Or.inr (Or.inr hm)

/-- After an escaped literal, the input never continues with a bare `*`
(given the appended rest does not start with one). -/
theorem escL_append_head_ne_star {s rest : List Char}
    (hstar : ∀ d tail, rest = d :: tail → ¬d = '*') :
    ¬(escapeRegExpL s ++ rest).head? = some '*' := by
  intro hh
  cases hx : escapeRegExpL s ++ rest with
  | nil => rw [hx] at hh; cases hh
  | cons d tail =>
    rw [hx] at hh
    have hd : d = '*' := by
      injection hh
    rcases escL_append_head hx with ⟨-, hr⟩ | hb | hnm
    · exact hstar d tail hr hd
    · rw [hd] at hb
      exact absurd hb (by decide)
    · rw [hd] at hnm
      exact absurd hnm (by decide)

/-- Parsing an escaped literal (with a safe tail appended) yields one
literal atom per character. -/
theorem parseToksF_escL {rest : List Char} {eR : Bool}
    (hres : ∀ f, 0 < f → parseToksF f rest = some ([], eR))
    (hstar : ∀ d tail, rest = d :: tail → ¬d = '*') :
    ∀ (fuel : Nat) (s : List Char), (escapeRegExpL s ++ rest).length < fuel →
      parseToksF fuel (escapeRegExpL s ++ rest) = some (litToks s, eR) := by
  intro fuel
  induction fuel with
  | zero =>
    intro s h
    exact absurd h (by omega)
  | succ f ih =>
    intro s hlen
    cases s with
    | nil => exact hres (f + 1) (by omega)
    | cons c s' =>
      by_cases hm : isRegexMeta c = true
      · have he : escapeRegExpL (c :: s') ++ rest =
            '\\' :: c :: (escapeRegExpL s' ++ rest) := by
          rw [escapeRegExpL, if_pos hm]
          simp
        rw [he] at hlen ⊢
        rw [parseToksF]
        rw [if_neg (by rintro ⟨h1, -⟩; exact absurd h1 (by decide))]
        rw [readAtom_escaped _ hm]
        dsimp only [Option.bind]
        rw [if_neg (escL_append_head_ne_star hstar)]
        rw [ih s' (by simp at hlen ⊢; omega)]
        rfl
      · rw [Bool.not_eq_true] at hm
        have he : escapeRegExpL (c :: s') ++ rest = c :: (escapeRegExpL s' ++ rest) := by
          rw [escapeRegExpL, if_neg (by rw [hm]; intro hc; cases hc)]
          simp
        have hdol : ¬c = '$' := by
          intro hc
          rw [hc] at hm
          exact absurd hm (by decide)
        rw [he] at hlen ⊢
        rw [parseToksF]
        rw [if_neg (by rintro ⟨h1, -⟩; exact hdol h1)]
        rw [readAtom_plain _ hm]
        dsimp only [Option.bind]
        rw [if_neg (escL_append_head_ne_star hstar)]
        rw [ih s' (by simp at hlen ⊢; omega)]
        rfl

/-- Parsing a bare escaped literal. -/
theorem parseToks_escL (s : List Char) : parseToks (escapeRegExpL s) = some (litToks s, false) := by
  have h0 : parseToks (escapeRegExpL s) = parseToksF ((escapeRegExpL s ++ []).length + 1)
      (escapeRegExpL s ++ []) := by
    rw [List.append_nil]
    rfl
  rw [h0]
  exact parseToksF_escL (fun f hf => by
      cases f with
      | zero => exact absurd hf (by omega)
      | succ f' => rfl)
    (fun d tail hdt => by cases hdt)
    _ s (by omega)

/-- Parsing an escaped literal followed by the end anchor. -/
theorem parseToks_escL_anchor (s : List Char) :
    parseToks (escapeRegExpL s ++ ['$']) = some (litToks s, true) := by
  exact parseToksF_escL (fun f hf => by
      cases f with
      | zero => exact absurd hf (by omega)
      | succ f' => rfl)
    (fun d tail hdt => by injection hdt with h1 _; rw [← h1]; decide)
    _ s (by omega)

/-- The unanchored matcher on literal tokens is the Boolean prefix test. -/
theorem matchT_lits_front :
    ∀ (f : Nat) (s cs : List Char), s.length + cs.length < f →
      matchT f false (litToks s) cs = isPrefixB s cs := by
  intro f
  induction f with
  | zero =>
    intro s cs h
    exact absurd h (by omega)
  | succ f ih =>
    intro s cs hlen
    cases s with
    | nil => rfl
    | cons c s' =>
      cases cs with
      | nil => rfl
      | cons d cs' =>
        rw [show matchT (f + 1) false (litToks (c :: s')) (d :: cs') =
          (atomMatches (.lit c) d && matchT f false (litToks s') cs') from rfl]
        rw [ih s' cs' (by simp at hlen ⊢; omega)]
        rfl

/-- The end-anchored matcher on literal tokens is the equality test. -/
theorem matchT_lits_exact :
    ∀ (f : Nat) (s cs : List Char), s.length + cs.length < f →
      matchT f true (litToks s) cs = decide (s = cs) := by
  intro f
  induction f with
  | zero =>
    intro s cs h
    exact absurd h (by omega)
  | succ f ih =>
    intro s cs hlen
    cases s with
    | nil => cases cs <;> rfl
    | cons c s' =>
      cases cs with
      | nil => rfl
      | cons d cs' =>
        rw [show matchT (f + 1) true (litToks (c :: s')) (d :: cs') =
          (atomMatches (.lit c) d && matchT f true (litToks s') cs') from rfl]
        rw [ih s' cs' (by simp at hlen ⊢; omega)]
        by_cases hc : c = d <;> by_cases ht : s' = cs' <;> simp [hc, ht, atomMatches]

/-- Wrapper form of `matchT_lits_front`. -/
theorem matchToks_lits_front (s cs : List Char) :
    matchToks false (litToks s) cs = isPrefixB s cs := by
  apply matchT_lits_front
  simp [litToks, matchToks]

/-- Wrapper form of `matchT_lits_exact`. -/
theorem matchToks_lits_exact (s cs : List Char) :
    matchToks true (litToks s) cs = decide (s = cs) := by
  apply matchT_lits_exact
  simp [litToks, matchToks]

/-- Searching literal tokens is the Boolean infix test. -/
theorem searchToks_lits_inside :
    ∀ (cs s : List Char), searchToks false (litToks s) cs = isInfixB s cs := by
  intro cs
  induction cs with
  | nil =>
    intro s
    show matchToks false (litToks s) [] = isPrefixB s []
    exact matchToks_lits_front s []
  | cons c cs' ih =>
    intro s
    show (matchToks false (litToks s) (c :: cs') || searchToks false (litToks s) cs') = _
    rw [matchToks_lits_front, ih]
    rfl

/-- Searching end-anchored literal tokens is the Boolean suffix test. -/
theorem searchToks_lits_suffix :
    ∀ (cs s : List Char), searchToks true (litToks s) cs = isSuffixB s cs := by
  intro cs
  induction cs with
  | nil =>
    intro s
    show matchToks true (litToks s) [] = isSuffixB s []
    rw [matchToks_lits_exact]
    cases s <;> rfl
  | cons c cs' ih =>
    intro s
    show (matchToks true (litToks s) (c :: cs') || searchToks true (litToks s) cs') = _
    rw [matchToks_lits_exact, ih]
    rfl

/-- The Boolean prefix test agrees with `List.IsPrefix`. -/
theorem isPrefixB_iff : ∀ (s t : List Char), isPrefixB s t = true ↔ s <+: t := by
  intro s
  induction s with
  | nil =>
    intro t
    simp [isPrefixB]
  | cons c s' ih =>
    intro t
    cases t with
    | nil =>
      simp only [isPrefixB]
      constructor
      · intro h; cases h
      · rintro ⟨r, hr⟩; cases hr
    | cons d t' =>
      rw [show isPrefixB (c :: s') (d :: t') = (decide (c = d) && isPrefixB s' t') from rfl]
      rw [Bool.and_eq_true, decide_eq_true_eq, ih]
      exact (List.cons_prefix_cons).symm

/-- The Boolean infix test agrees with `List.IsInfix`. -/
theorem isInfixB_iff : ∀ (t s : List Char), isInfixB s t = true ↔ s <:+: t := by
  intro t
  induction t with
  | nil =>
    intro s
    show isPrefixB s [] = true ↔ _
    rw [isPrefixB_iff]
    constructor
    · intro h
      exact h.isInfix
    · intro h
      cases List.eq_nil_of_infix_nil h
      exact List.nil_prefix
  | cons c t' ih =>
    intro s
    show (isPrefixB s (c :: t') || isInfixB s t') = true ↔ _
    rw [Bool.or_eq_true, isPrefixB_iff, ih]
    exact (List.infix_cons_iff).symm

/-- The Boolean suffix test agrees with `List.IsSuffix`. -/
theorem isSuffixB_iff : ∀ (t s : List Char), isSuffixB s t = true ↔ s <:+ t := by
  intro t
  induction t with
  | nil =>
    intro s
    show s.isEmpty = true ↔ _
    rw [List.isEmpty_iff]
    constructor
    · rintro rfl
      exact List.nil_suffix
    · intro h
      exact List.eq_nil_of_suffix_nil h
  | cons c t' ih =>
    intro s
    show (decide (s = c :: t') || isSuffixB s t') = true ↔ _
    rw [Bool.or_eq_true, decide_eq_true_eq, ih]
    exact (List.suffix_cons_iff).symm

/-- The head of an escaped literal (plus safe rest) is never an unescaped
`^`. -/
theorem escL_append_head_ne_caret {s rest : List Char}
    (hrest : ∀ d tail, rest = d :: tail → ¬d = '^') :
    ¬(escapeRegExpL s ++ rest).head? = some '^' := by
  intro hh
  cases hx : escapeRegExpL s ++ rest with
  | nil => rw [hx] at hh; cases hh
  | cons d tail =>
    rw [hx] at hh
    have hd : d = '^' := by injection hh
    rcases escL_append_head hx with ⟨-, hr⟩ | hb | hnm
    · exact hrest d tail hr hd
    · rw [hd] at hb
      exact absurd hb (by decide)
    · rw [hd] at hnm
      exact absurd hnm (by decide)

/-- Lower-casing literal tokens is lower-casing the literal. -/
theorem litToks_lower (s : List Char) :
    (litToks s).map lowerTok = litToks (s.map Char.toLower) := by
  induction s with
  | nil => rfl
  | cons c s' ih =>
    show RTok.atom (.lit c.toLower) :: (litToks s').map lowerTok = _
    rw [ih]
    rfl

/-- Parsing a whole escaped-literal pattern. -/
theorem parsePattern_escL (s : List Char) :
    parsePattern (escapeRegExpL s) = some (false, litToks s, false) := by
  rw [parsePattern]
  rw [if_neg (by
    rw [show escapeRegExpL s = escapeRegExpL s ++ [] from (List.append_nil _).symm]
    exact escL_append_head_ne_caret (fun d tail hdt => by cases hdt))]
  rw [parseToks_escL]
  rfl

/-- Parsing a start-anchored escaped-literal pattern. -/
theorem parsePattern_caret_escL (s : List Char) :
    parsePattern ('^' :: escapeRegExpL s) = some (true, litToks s, false) := by
  rw [parsePattern,
    if_pos (show ('^' :: escapeRegExpL s).head? = some '^' from rfl)]
  show (parseToks (escapeRegExpL s)).map _ = _
  rw [parseToks_escL]
  rfl

/-- Parsing an end-anchored escaped-literal pattern. -/
theorem parsePattern_escL_anchor (s : List Char) :
    parsePattern (escapeRegExpL s ++ ['$']) = some (false, litToks s, true) := by
  rw [parsePattern]
  rw [if_neg (escL_append_head_ne_caret (fun d tail hdt => by
    injection hdt with h1 _
    rw [← h1]
    decide))]
  rw [parseToks_escL_anchor]
  rfl

/-- Substring semantics of a compiled `cn` pattern. -/
theorem regexMatch_contains (s t : String) :
    regexMatch (escapeRegExp s) false t = true ↔ s.data <:+: t.data := by
  rw [regexMatch, show (escapeRegExp s).data = escapeRegExpL s.data from rfl,
    parsePattern_escL]
  show searchToks false (litToks s.data) t.data = true ↔ _
  rw [searchToks_lits_inside, isInfixB_iff]

/-- Substring semantics of a compiled `cni` pattern (case-folded). -/
theorem regexMatch_contains_ci (s t : String) :
    regexMatch (escapeRegExp s) true t = true ↔
      s.data.map Char.toLower <:+: t.data.map Char.toLower := by
  rw [regexMatch, show (escapeRegExp s).data = escapeRegExpL s.data from rfl,
    parsePattern_escL]
  show searchToks false ((litToks s.data).map lowerTok) (t.data.map Char.toLower) = true ↔ _
  rw [litToks_lower, searchToks_lits_inside, isInfixB_iff]

/-- Prefix semantics of a compiled `sw` pattern. -/
theorem regexMatch_starts (s t : String) :
    regexMatch ("^" ++ escapeRegExp s) false t = true ↔ s.data <+: t.data := by
  rw [regexMatch, show ("^" ++ escapeRegExp s).data = '^' :: escapeRegExpL s.data by
    rw [String.data_append]; rfl, parsePattern_caret_escL]
  show matchToks false (litToks s.data) t.data = true ↔ _
  rw [matchToks_lits_front, isPrefixB_iff]

/-- Prefix semantics of a compiled `swi` pattern (case-folded). -/
theorem regexMatch_starts_ci (s t : String) :
    regexMatch ("^" ++ escapeRegExp s) true t = true ↔
      s.data.map Char.toLower <+: t.data.map Char.toLower := by
  rw [regexMatch, show ("^" ++ escapeRegExp s).data = '^' :: escapeRegExpL s.data by
    rw [String.data_append]; rfl, parsePattern_caret_escL]
  show matchToks false ((litToks s.data).map lowerTok) (t.data.map Char.toLower) = true ↔ _
  rw [litToks_lower, matchToks_lits_front, isPrefixB_iff]

/-- Suffix semantics of a compiled `ew` pattern. -/
theorem regexMatch_ends (s t : String) :
    regexMatch (escapeRegExp s ++ "$") false t = true ↔ s.data <:+ t.data := by
  rw [regexMatch, show (escapeRegExp s ++ "$").data = escapeRegExpL s.data ++ ['$'] by
    rw [String.data_append]; rfl, parsePattern_escL_anchor]
  show searchToks true (litToks s.data) t.data = true ↔ _
  rw [searchToks_lits_suffix, isSuffixB_iff]

/-- Suffix semantics of a compiled `ewi` pattern (case-folded). -/
theorem regexMatch_ends_ci (s t : String) :
    regexMatch (escapeRegExp s ++ "$") true t = true ↔
      s.data.map Char.toLower <:+ t.data.map Char.toLower := by
  rw [regexMatch, show (escapeRegExp s ++ "$").data = escapeRegExpL s.data ++ ['$'] by
    rw [String.data_append]; rfl, parsePattern_escL_anchor]
  show searchToks true ((litToks s.data).map lowerTok) (t.data.map Char.toLower) = true ↔ _
  rw [litToks_lower, searchToks_lits_suffix, isSuffixB_iff]

/-- C6: literal semantics of the string-match operations.  For every
literal `s` and operation among `cn`/`cni`/`sw`/`swi`/`ew`/`ewi` (over a
text-typed feature), the compiler embeds the escaped literal in the
compiled `$regex` condition, and that regular expression matches a
document string `t` exactly when `t` contains / starts with / ends with
the literal substring `s` (case-folded for the `i` variants): escaping
prevents any metacharacter of `s` from being interpreted as a pattern. -/
theorem C6_string_ops_literal (dp : String → Option Int) (nm s t : String) :
    (toMongoFilter dp [⟨0, .text, nm⟩] (.mk "single" "cn" (.int 0) (some s) []) =
        .ok (.field nm (.regex (escapeRegExp s) false)) ∧
      (regexMatch (escapeRegExp s) false t = true ↔ s.data <:+: t.data)) ∧
    (toMongoFilter dp [⟨0, .text, nm⟩] (.mk "single" "cni" (.int 0) (some s) []) =
        .ok (.field nm (.regex (escapeRegExp s) true)) ∧
      (regexMatch (escapeRegExp s) true t = true ↔
        s.data.map Char.toLower <:+: t.data.map Char.toLower)) ∧
    (toMongoFilter dp [⟨0, .text, nm⟩] (.mk "single" "sw" (.int 0) (some s) []) =
        .ok (.field nm (.regex ("^" ++ escapeRegExp s) false)) ∧
      (regexMatch ("^" ++ escapeRegExp s) false t = true ↔ s.data <+: t.data)) ∧
    (toMongoFilter dp [⟨0, .text, nm⟩] (.mk "single" "swi" (.int 0) (some s) []) =
        .ok (.field nm (.regex ("^" ++ escapeRegExp s) true)) ∧
      (regexMatch ("^" ++ escapeRegExp s) true t = true ↔
        s.data.map Char.toLower <+: t.data.map Char.toLower)) ∧
    (toMongoFilter dp [⟨0, .text, nm⟩] (.mk "single" "ew" (.int 0) (some s) []) =
        .ok (.field nm (.regex (escapeRegExp s ++ "$") false)) ∧
      (regexMatch (escapeRegExp s ++ "$") false t = true ↔ s.data <:+ t.data)) ∧
    (toMongoFilter dp [⟨0, .text, nm⟩] (.mk "single" "ewi" (.int 0) (some s) []) =
        .ok (.field nm (.regex (escapeRegExp s ++ "$") true)) ∧
      (regexMatch (escapeRegExp s ++ "$") true t = true ↔
        s.data.map Char.toLower <:+ t.data.map Char.toLower)) := by
  refine ⟨⟨rfl, regexMatch_contains s t⟩, ⟨rfl, regexMatch_contains_ci s t⟩,
    ⟨rfl, regexMatch_starts s t⟩, ⟨rfl, regexMatch_starts_ci s t⟩,
    ⟨rfl, regexMatch_ends s t⟩, ⟨rfl, regexMatch_ends_ci s t⟩⟩

/-! ## Claim C8 — nominal-value lookup -/

/-- Strings with equal character data are equal. -/
theorem strDataEq {s1 s2 : String} (h : s1.data = s2.data) : s1 = s2 := by
  cases s1
  cases s2
  cases h
  rfl

/-- The executable character-list order is trichotomous. -/
theorem charListLtB_trichotomy : ∀ as bs : List Char,
    charListLtB as bs = true ∨ as = bs ∨ charListLtB bs as = true := by
  intro as
  induction as with
  | nil =>
    intro bs
    cases bs with
    | nil => exact Or.inr (Or.inl rfl)
    | cons b bs' => exact Or.inl rfl
  | cons a as' ih =>
    intro bs
    cases bs with
    | nil => exact Or.inr (Or.inr rfl)
    | cons b bs' =>
      rcases lt_trichotomy a b with h | h | h
      · refine Or.inl ?_
        rw [show charListLtB (a :: as') (b :: bs') =
          ((a < b : Bool) || (a = b && charListLtB as' bs')) from rfl]
        rw [Bool.or_eq_true]
        exact Or.inl (decide_eq_true h)
      · subst h
        rcases ih bs' with h1 | h1 | h1
        · refine Or.inl ?_
          rw [show charListLtB (a :: as') (a :: bs') =
            ((a < a : Bool) || (a = a && charListLtB as' bs')) from rfl]
          rw [Bool.or_eq_true, Bool.and_eq_true]
          exact Or.inr ⟨decide_eq_true rfl, h1⟩
        · exact Or.inr (Or.inl (by rw [h1]))
        · refine Or.inr (Or.inr ?_)
          rw [show charListLtB (a :: bs') (a :: as') =
            ((a < a : Bool) || (a = a && charListLtB bs' as')) from rfl]
          rw [Bool.or_eq_true, Bool.and_eq_true]
          exact Or.inr ⟨decide_eq_true rfl, h1⟩
      · refine Or.inr (Or.inr ?_)
        rw [show charListLtB (b :: bs') (a :: as') =
          ((b < a : Bool) || (b = a && charListLtB bs' as')) from rfl]
        rw [Bool.or_eq_true]
        exact Or.inl (decide_eq_true h)

/-- The executable character-list order is transitive. -/
theorem charListLtB_trans : ∀ as bs cs : List Char,
    charListLtB as bs = true → charListLtB bs cs = true →
      charListLtB as cs = true := by
  intro as
  induction as with
  | nil =>
    intro bs cs h1 h2
    cases bs with
    | nil => cases h1
    | cons b bs' =>
      cases cs with
      | nil => cases h2
      | cons c cs' => rfl
  | cons a as' ih =>
    intro bs cs h1 h2
    cases bs with
    | nil => cases h1
    | cons b bs' =>
      cases cs with
      | nil => cases h2
      | cons c cs' =>
        rw [show charListLtB (a :: as') (b :: bs') =
          ((a < b : Bool) || (a = b && charListLtB as' bs')) from rfl,
          Bool.or_eq_true, Bool.and_eq_true] at h1
        rw [show charListLtB (b :: bs') (c :: cs') =
          ((b < c : Bool) || (b = c && charListLtB bs' cs')) from rfl,
          Bool.or_eq_true, Bool.and_eq_true] at h2
        rw [show charListLtB (a :: as') (c :: cs') =
          ((a < c : Bool) || (a = c && charListLtB as' cs')) from rfl,
          Bool.or_eq_true, Bool.and_eq_true]
        rcases h1 with h1 | ⟨he1, ht1⟩
        · rcases h2 with h2 | ⟨he2, ht2⟩
          · exact Or.inl (decide_eq_true
              (lt_trans (of_decide_eq_true h1) (of_decide_eq_true h2)))
          · have hbc : b = c := of_decide_eq_true he2
            subst hbc
            exact Or.inl h1
        · have hab : a = b := of_decide_eq_true he1
          subst hab
          rcases h2 with h2 | ⟨he2, ht2⟩
          · exact Or.inl h2
          · have hac : a = c := of_decide_eq_true he2
            subst hac
            exact Or.inr ⟨decide_eq_true rfl, ih bs' cs' ht1 ht2⟩

/-- The executable string order is trichotomous. -/
theorem strLtB_trichotomy (a b : String) :
    strLtB a b = true ∨ a = b ∨ strLtB b a = true := by
  rcases charListLtB_trichotomy a.data b.data with h | h | h
  · exact Or.inl h
  · exact Or.inr (Or.inl (strDataEq h))
  · exact Or.inr (Or.inr h)

/-- The executable string order is transitive. -/
theorem strLtB_trans {a b c : String} (h1 : strLtB a b = true)
    (h2 : strLtB b c = true) : strLtB a c = true :=
  charListLtB_trans a.data b.data c.data h1 h2

/-- The BSON document order is total. -/
theorem bsonLe_total : ∀ x y : Option InstanceVal, bsonLe x y = true ∨ bsonLe y x = true := by
  intro x y
  rcases x with _ | (_ | s1 | n1 | b1 | d1) <;>
    rcases y with _ | (_ | s2 | n2 | b2 | d2) <;>
    simp [bsonLe, bsonRank, bsonLt] <;>
    first
      | omega
      | (rcases strLtB_trichotomy s1 s2 with h | h | h
         exacts [Or.inl (Or.inl h), Or.inl (Or.inr h), Or.inr (Or.inl h)])
      | (cases b1 <;> cases b2 <;> decide)

/-- The BSON document order is transitive. -/
theorem bsonLe_trans :
    ∀ x y z : Option InstanceVal,
      bsonLe x y = true → bsonLe y z = true → bsonLe x z = true := by
  intro x y z
  rcases x with _ | (_ | s1 | n1 | b1 | d1) <;>
    rcases y with _ | (_ | s2 | n2 | b2 | d2) <;>
    rcases z with _ | (_ | s3 | n3 | b3 | d3) <;>
    simp [bsonLe, bsonRank, bsonLt] <;>
    first
      | omega
      | (rintro (h1 | rfl) (h2 | rfl) <;>
         first
           | exact Or.inl (strLtB_trans h1 h2)
           | exact Or.inl h1
           | exact Or.inl h2
           | exact Or.inr rfl)
      | (cases b1 <;> cases b2 <;> cases b3 <;> decide)

/-- `Nat.toDigitsCore` with a non-empty accumulator or positive fuel never
returns the empty list. -/
theorem toDigitsCore_ne_nil (b : Nat) :
    ∀ (fuel n : Nat) (ds : List Char), ds ≠ [] ∨ fuel ≠ 0 →
      Nat.toDigitsCore b fuel n ds ≠ [] := by
  intro fuel
  induction fuel with
  | zero =>
    intro n ds hds
    rcases hds with hds | hds
    · simpa [Nat.toDigitsCore] using hds
    · exact absurd rfl hds
  | succ fuel ih =>
    intro n ds hds
    simp only [Nat.toDigitsCore]
    split
    · exact List.cons_ne_nil _ _
    · exact ih (n / b) _ (Or.inl (List.cons_ne_nil _ _))

/-- The decimal rendering of a natural number is never the empty string. -/
theorem nat_repr_ne_empty (n : Nat) : Nat.repr n ≠ "" := by
  intro h
  exact toDigitsCore_ne_nil 10 (n + 1) n [] (Or.inr (Nat.succ_ne_zero n))
    (congrArg String.data h)

/-- The decimal rendering of an integer is never the empty string. -/
theorem int_toString_ne_empty (n : Int) : toString n ≠ "" := by
  cases n with
  | ofNat m => exact nat_repr_ne_empty m
  | negSucc m =>
    intro h
    have h2 : '-' :: (Nat.repr (m + 1)).data = ([] : List Char) :=
      congrArg String.data h
    exact List.noConfusion h2

/-- A truthy document field value stringifies to a non-empty string. -/
theorem instTruthy_toString_ne (w : InstanceVal) (h : instTruthy w = true) :
    instToString w ≠ "" := by
  cases w with
  | nullV => exact Bool.noConfusion h
  | strV s => exact of_decide_eq_true h
  | numV n =>
    have hn : n ≠ 0 := of_decide_eq_true h
    show (if n = 0 then "" else toString n) ≠ ""
    rw [if_neg hn]
    exact int_toString_ne_empty n
  | boolV b =>
    cases b
    · exact Bool.noConfusion h
    · decide
  | dateV ms =>
    intro hcontra
    have h2 : 'D' :: 'a' :: 't' :: 'e' :: ' ' :: (toString ms).data = ([] : List Char) :=
      congrArg String.data hcontra
    exact List.noConfusion h2

/-- C8 (counterexample to the original claim), three failures.  (i) No
deduplication: two documents with the same field value produce the value
twice, so the returned values are not pairwise distinct.  (ii) Not every
filter is served: a `cn` leaf over a numeric feature coerces its literal
to null, the compiler throws a TypeError, and the call rejects instead of
returning values.  (iii) On a collection whose field holds the numbers 9
and 10 the returned list is ["9", "10"], which is not ascending in the
lexicographic string order. -/
theorem C8_original_counterexample :
    (getNominalValues dpNone [[("f", .strV "a")], [("f", .strV "a")]] [⟨0, .nominal, "f"⟩]
        none "" 0 = .ok ["a", "a"] ∧
      ¬(["a", "a"] : List String).Pairwise (· ≠ ·)) ∧
    getNominalValues dpNone [] [⟨0, .nominal, "f"⟩, ⟨1, .numeric, "g"⟩]
        (some (.mk "single" "cn" (.int 1) (some "x") [])) "" 0 = .error .typeError ∧
    (getNominalValues dpNone [[("f", .numV 9)], [("f", .numV 10)]] [⟨0, .nominal, "f"⟩]
        none "" 0 = .ok ["9", "10"] ∧
      ¬(["9", "10"] : List String).Pairwise (fun a b => strLtB a b = true ∨ a = b)) := by
  refine ⟨⟨rfl, ?_⟩, rfl, rfl, ?_⟩
  · intro h
    rcases List.pairwise_cons.mp h with ⟨hne, -⟩
    exact hne "a" (List.mem_singleton.mpr rfl) rfl
  · intro h
    rcases List.pairwise_cons.mp h with ⟨hlt, -⟩
    rcases hlt "10" (List.mem_singleton.mpr rfl) with h1 | h1
    · exact absurd h1 (by decide)
    · exact absurd h1 (by decide)

/-- C8 (amended): for a feature whose declared type is nominal, whenever
`getNominalValues` returns a value list (the call rejects when the filter's
compilation throws), the list has at most 128 entries and every entry is a
non-empty string; on a collection in which every stored value of the field
is a string or null, the entries are moreover sorted ascending in the
lexicographic string order and each one is the field value of some stored
document.  (Pairwise distinctness is dropped: the source does not
deduplicate, see the counterexample.) -/
theorem C8_nominal_values_amended
    (dp : String → Option Int) (db : List MDoc) (fields : List Feature)
    (filter : Option QueryTree) (query : String) (i : Nat) (f : Feature)
    (vs : List String)
    (hf : fields.get? i = some f)
    (htype : f.type = .nominal)
    (h : getNominalValues dp db fields filter query i = .ok vs) :
    vs.length ≤ 128 ∧
    (∀ v ∈ vs, v ≠ "") ∧
    ((∀ d ∈ db, ∀ v, docLookup d f.name = some v →
        (∃ s, v = .strV s) ∨ v = .nullV) →
      vs.Pairwise (fun a b => strLtB a b = true ∨ a = b) ∧
      ∀ v ∈ vs, ∃ d ∈ db, docLookup d f.name = some (.strV v)) := by
  cases hc : toMongoFilterOpt dp fields filter with
  | error e =>
    rw [getNominalValues.eq_def, hf] at h
    dsimp only at h
    rw [if_neg (show ¬(f.type ≠ FeatureType.nominal) from fun hh => hh htype), hc] at h
    simp only [exBind_err] at h
    exact Except.noConfusion h
  | ok cond =>
    have heq : getNominalValues dp db fields filter query i =
        .ok (((((db.filter (fun d => matchesF cond d)).insertionSort
              (fun d1 d2 => bsonLe (docLookup d1 f.name) (docLookup d2 f.name))).take
              128).filter
            (fun d => instTruthy ((docLookup d f.name).getD .nullV))).map
          (fun d => instToString ((docLookup d f.name).getD .nullV))) := by
      rw [getNominalValues.eq_def, hf]
      dsimp only
      rw [if_neg (show ¬(f.type ≠ FeatureType.nominal) from fun hh => hh htype)]
      rw [hc]
      rfl
    rw [heq] at h
    injection h with h
    subst h
    refine ⟨?_, ?_, ?_⟩
    · rw [List.length_map]
      refine le_trans (List.length_filter_le _ _) ?_
      rw [List.length_take]
      exact min_le_left _ _
    · intro v hv
      rcases List.mem_map.mp hv with ⟨d, hd, rfl⟩
      rcases List.mem_filter.mp hd with ⟨-, hdTr⟩
      exact instTruthy_toString_ne _ hdTr
    · intro hdb
      have hmem : ∀ d ∈ ((((db.filter (fun d => matchesF cond d)).insertionSort
            (fun d1 d2 => bsonLe (docLookup d1 f.name) (docLookup d2 f.name))).take
            128).filter
          (fun d => instTruthy ((docLookup d f.name).getD .nullV))),
          d ∈ db ∧ ∃ s, docLookup d f.name = some (.strV s) ∧ s ≠ "" ∧
            instToString ((docLookup d f.name).getD .nullV) = s := by
        intro d hd
        rcases List.mem_filter.mp hd with ⟨hdTake, hdTr⟩
        have hdDb : d ∈ db := List.mem_of_mem_filter
          ((List.perm_insertionSort _ _).subset (List.take_subset _ _ hdTake))
        refine ⟨hdDb, ?_⟩
        rcases hlook : docLookup d f.name with _ | v
        · rw [hlook] at hdTr
          simp [instTruthy] at hdTr
        · rcases hdb d hdDb v hlook with ⟨s, rfl⟩ | rfl
          · rw [hlook] at hdTr
            have hs : s ≠ "" := by simpa [instTruthy] using hdTr
            exact ⟨s, rfl, hs, rfl⟩
          · rw [hlook] at hdTr
            simp [instTruthy] at hdTr
      have hsorted : ((((db.filter (fun d => matchesF cond d)).insertionSort
            (fun d1 d2 => bsonLe (docLookup d1 f.name) (docLookup d2 f.name))).take
            128).filter
          (fun d => instTruthy ((docLookup d f.name).getD .nullV))).Pairwise
          (fun d1 d2 => bsonLe (docLookup d1 f.name) (docLookup d2 f.name) = true) := by
        have h1 : ((db.filter (fun d => matchesF cond d)).insertionSort
            (fun d1 d2 => bsonLe (docLookup d1 f.name) (docLookup d2 f.name))).Pairwise
            (fun d1 d2 => bsonLe (docLookup d1 f.name) (docLookup d2 f.name) = true) := by
          letI : IsTotal MDoc (fun d1 d2 =>
              bsonLe (docLookup d1 f.name) (docLookup d2 f.name) = true) :=
            ⟨fun a b => bsonLe_total _ _⟩
          letI : IsTrans MDoc (fun d1 d2 =>
              bsonLe (docLookup d1 f.name) (docLookup d2 f.name) = true) :=
            ⟨fun a b c => bsonLe_trans _ _ _⟩
          exact List.sorted_insertionSort _ _
        exact List.Pairwise.sublist
          ((List.filter_sublist _).trans (List.take_sublist _ _)) h1
      refine ⟨?_, ?_⟩
      · refine List.pairwise_map.mpr ?_
        refine hsorted.imp_of_mem ?_
        intro d1 d2 h1m h2m hle
        rcases hmem d1 h1m with ⟨-, s1, hl1, -, hstr1⟩
        rcases hmem d2 h2m with ⟨-, s2, hl2, -, hstr2⟩
        rw [hstr1, hstr2]
        rw [hl1, hl2] at hle
        simpa [bsonLe, bsonRank, bsonLt] using hle
      · intro v hv
        rcases List.mem_map.mp hv with ⟨d, hd, rfl⟩
        rcases hmem d hd with ⟨hdDb, s, hlook, -, hstr⟩
        refine ⟨d, hdDb, ?_⟩
        rw [hstr]
        exact hlook

/-- Witness for `C8_nominal_values_amended`: a three-document collection
with the nominal field "f" valued "b", "a" and null, returning ["a", "b"]. -/
theorem C8_nominal_values_amended_witness :
    (["a", "b"] : List String).length ≤ 128 ∧
    (∀ v ∈ (["a", "b"] : List String), v ≠ "") ∧
    ((∀ d ∈ ([[("f", .strV "b")], [("f", .strV "a")], [("f", .nullV)]] : List MDoc),
        ∀ v, docLookup d "f" = some v → (∃ s, v = .strV s) ∨ v = .nullV) →
      (["a", "b"] : List String).Pairwise (fun a b => strLtB a b = true ∨ a = b) ∧
      ∀ v ∈ (["a", "b"] : List String),
        ∃ d ∈ ([[("f", .strV "b")], [("f", .strV "a")], [("f", .nullV)]] : List MDoc),
          docLookup d "f" = some (.strV v)) :=
  C8_nominal_values_amended dpNone
    [[("f", .strV "b")], [("f", .strV "a")], [("f", .nullV)]]
    [⟨0, .nominal, "f"⟩] none "Q" 0 ⟨0, .nominal, "f"⟩ ["a", "b"] rfl rfl rfl
